import Mathlib

/-!
# Verification development for `btracey/nco`

A shallow embedding of the network-coding LP builder (`ncolp`): the node and
edge variants with their names (`ncograph.go`), the three-tier reference
topology `RelayerGraph` (`fulledge.go`) and the constraint generator `BasicLP`
(`ncoopt.go`).

Modelling conventions.
* Go `int` values are `Int`; the only arithmetic the code performs on them that
  can leave the 64-bit range (`int(relayer) + 1`) is wrapped explicitly.
* Go `float64` weights, costs and coefficients are exact rationals `ℚ`.
* Go slices are `List`s; `append` is `++`; `for ... range` is `for ... in`.
* The interfaces `Node` and `Edge` (a single method `Name()`) are the class
  `Named`; the built-in variants are the closed sums `Node` and `Edge`.
-/

namespace Nco

/-! ## `strconv.Itoa` -/

/-- Decimal rendering of a Go `int`, as `strconv.Itoa` produces it. -/
def Itoa (n : Int) : String :=
  match n with
  | Int.ofNat m => Nat.repr m
  | Int.negSucc m => "-" ++ Nat.repr (m + 1)

/-- Two's-complement wrap-around of a 64-bit Go `int`. -/
def wrapInt (x : Int) : Int := (x + 2 ^ 63) % 2 ^ 64 - 2 ^ 63

/-! ## `ncograph.go`: nodes and edges -/

/-- The Go interfaces `Node` and `Edge`: anything with a `Name()`. -/
class Named (α : Type) where
  Name : α → String

/-- Go `type Sender int`. -/
structure Sender where
  idx : Int
deriving DecidableEq

/-- Go `type Relayer int`. -/
structure Relayer where
  idx : Int
deriving DecidableEq

/-- Go `type Receiver int`. -/
structure Receiver where
  idx : Int
deriving DecidableEq

def Sender.Name (s : Sender) : String := "s" ++ Itoa s.idx

def Relayer.Name (r : Relayer) : String := "r" ++ Itoa r.idx

def Receiver.Name (t : Receiver) : String := "t" ++ Itoa t.idx

/-- EdgeSR is an edge from a sender to a relayer. -/
structure EdgeSR where
  From : Sender
  To : Relayer
deriving DecidableEq

/-- EdgeST is an edge from a sender to a receiver. -/
structure EdgeST where
  From : Sender
  To : Receiver
deriving DecidableEq

/-- EdgeRT is an edge from a relayer to a receiver. -/
structure EdgeRT where
  From : Relayer
  To : Receiver
deriving DecidableEq

/-- EdgeRR is an edge from a relayer to a relayer. -/
structure EdgeRR where
  From : Relayer
  To : Relayer
deriving DecidableEq

def EdgeSR.Name (e : EdgeSR) : String := "e" ++ e.From.Name ++ e.To.Name

def EdgeST.Name (e : EdgeST) : String := "e" ++ e.From.Name ++ e.To.Name

def EdgeRT.Name (e : EdgeRT) : String := "e" ++ e.From.Name ++ e.To.Name

def EdgeRR.Name (e : EdgeRR) : String := "e" ++ e.From.Name ++ e.To.Name

/-- A value of the interface type `Node` holding one of the built-in variants. -/
inductive Node where
  | sender (s : Sender)
  | relayer (r : Relayer)
  | receiver (t : Receiver)
deriving DecidableEq

/-- A value of the interface type `Edge` holding one of the built-in variants. -/
inductive Edge where
  | sr (e : EdgeSR)
  | st (e : EdgeST)
  | rt (e : EdgeRT)
  | rr (e : EdgeRR)
deriving DecidableEq

/-- Dynamic dispatch of `Name()` on a built-in node. -/
def Node.Name : Node → String
  | .sender s => s.Name
  | .relayer r => r.Name
  | .receiver t => t.Name

/-- Dynamic dispatch of `Name()` on a built-in edge. -/
def Edge.Name : Edge → String
  | .sr e => e.Name
  | .st e => e.Name
  | .rt e => e.Name
  | .rr e => e.Name

/-- The `From` field of a built-in edge, as a node. -/
def Edge.From : Edge → Node
  | .sr e => .sender e.From
  | .st e => .sender e.From
  | .rt e => .relayer e.From
  | .rr e => .relayer e.From

/-- The `To` field of a built-in edge, as a node. -/
def Edge.To : Edge → Node
  | .sr e => .relayer e.To
  | .st e => .receiver e.To
  | .rt e => .receiver e.To
  | .rr e => .relayer e.To

/-- The index carried by a built-in node. -/
def Node.idx : Node → Int
  | .sender s => s.idx
  | .relayer r => r.idx
  | .receiver t => t.idx

instance : Named Node := ⟨Node.Name⟩

instance : Named Edge := ⟨Edge.Name⟩

/-! ## `lpwrap`: the LP representation the builder emits

The package `github.com/btracey/lpwrap` is a dependency; only the shapes the
builder constructs are needed. -/

/-- Modelled from the spec: `lpwrap.Term`, a (variable-name, coefficient) pair
(the declaration lives in the `lpwrap` dependency). -/
structure Term where
  Var : String
  Coeff : ℚ
deriving DecidableEq

/-- Modelled from the spec: the comparators `lpwrap.LE`, `lpwrap.EQ`, `lpwrap.GE`. -/
inductive Comparison where
  | LE
  | EQ
  | GE
deriving DecidableEq

/-- Modelled from the spec: `lpwrap.Constraint`, left terms, comparator, right terms. -/
structure Constraint where
  Left : List Term
  Comp : Comparison
  Right : List Term
deriving DecidableEq

/-- Modelled from the spec: the objective sense, `lpwrap.Minimize` or maximize. -/
inductive Sense where
  | Minimize
  | Maximize
deriving DecidableEq

/-- Modelled from the spec: `lpwrap.Objective`, terms and a sense. -/
structure Objective where
  Terms : List Term
  Sense : Sense
deriving DecidableEq

/-- Modelled from the spec: `lpwrap.LP`, an objective and a constraint list. -/
structure LP where
  Objective : Objective
  Constraints : List Constraint
deriving DecidableEq

/-! ## `ncoopt.go`: the graph contract, demands and the builder

`lpwrap.Constant`, the reserved variable name marking a constant term, is a
string constant of the dependency whose value is not part of this repository;
every function that mentions it takes it as the parameter `Constant`. -/

/-- The Go interface `Graph`. -/
structure Graph (N E : Type) where
  Nodes : List N
  Edges : List E
  EdgeCost : E → ℚ
  EdgesTo : N → List E
  EdgesFrom : N → List E

structure Message (N : Type) where
  Sender : N
  Receivers : List N
  Weight : ℚ
deriving DecidableEq

abbrev Broadcast (N : Type) := List (Message N)

def MessageFlowName {E : Type} [Named E] (bcastIdx messIdx : Int) (edge : E) : String :=
  "b" ++ Itoa bcastIdx ++ "m" ++ Itoa messIdx ++ Named.Name edge

def MessageReceiverFlowName {N E : Type} [Named N] [Named E] (bcastIdx messIdx : Int)
    (receiver : N) (edge : E) : String :=
  "b" ++ Itoa bcastIdx ++ "m" ++ Itoa messIdx ++ Named.Name edge ++ "_" ++ Named.Name receiver

/-- The function nonNegativity makes a non-negativity constraint for the given variable name. -/
def nonNegativity (Constant : String) (name : String) : Constraint :=
  { Left := [⟨name, 1⟩], Comp := .GE, Right := [⟨Constant, 0⟩] }

def makeObjective {N E : Type} [Named E] (edges : List E) (graph : Graph N E) : Objective :=
  { Terms := edges.map fun edge => ⟨Named.Name edge, graph.EdgeCost edge⟩,
    Sense := .Minimize }

/-- Constructs the basic LP with objective and flow constraints. -/
def BasicLP {N E : Type} [Named N] [Named E] (Constant : String)
    (broadcasts : List (Broadcast N)) (graph : Graph N E) : LP := Id.run do
  let edges := graph.Edges
  let nodes := graph.Nodes
  let obj := makeObjective edges graph
  let mut cons : List Constraint := []
  -- Add non-negativity constraints for all of the edge capacities
  for edge in edges do
    let c := nonNegativity Constant (Named.Name edge)
    cons := cons ++ [c]
  -- Add non-negativity constraints for all of the message flows
  for (i, bcast) in broadcasts.enum do
    for (j, _) in bcast.enum do
      for edge in edges do
        let flowname := MessageFlowName i j edge
        cons := cons ++ [nonNegativity Constant flowname]
  -- Add constraint that the outflow has to equal the message weight.
  for (i, bcast) in broadcasts.enum do
    for (j, mess) in bcast.enum do
      for node in mess.Receivers do
        let mut con : Constraint :=
          { Left := [], Comp := .EQ, Right := [⟨Constant, mess.Weight⟩] }
        let edges := graph.EdgesTo node
        for edge in edges do
          let flowname := MessageFlowName i j edge
          let term : Term := ⟨flowname, 1⟩
          con := { con with Left := con.Left ++ [term] }
        cons := cons ++ [con]
  -- Add the constraint that the outlet edges from the source have to be less than
  -- the message weight.
  for (i, bcast) in broadcasts.enum do
    for (j, mess) in bcast.enum do
      let src := mess.Sender
      let children := graph.EdgesFrom src
      for edge in children do
        let flowname := MessageFlowName i j edge
        let con : Constraint :=
          { Left := [⟨flowname, 1⟩], Comp := .LE, Right := [⟨Constant, mess.Weight⟩] }
        cons := cons ++ [con]
  -- For each node, add the constraint that each outflow has to be less than
  -- or equal to the sum of the inflows
  for node in nodes do
    let parents := graph.EdgesTo node
    let children := graph.EdgesFrom node
    if children.length = 0 then
      continue
    if parents.length = 0 then
      -- No flow from the oulets UNLESS this is the source for that message
      for (i, bcast) in broadcasts.enum do
        for (j, mess) in bcast.enum do
          if Named.Name node = Named.Name mess.Sender then
            continue
          for child in children do
            let childFlowName := MessageFlowName i j child
            let con : Constraint :=
              { Left := [⟨childFlowName, 1⟩], Comp := .EQ, Right := [⟨Constant, 0⟩] }
            cons := cons ++ [con]
      continue
    for (i, bcast) in broadcasts.enum do
      for (j, _) in bcast.enum do
        for child in children do
          let childFlowName := MessageFlowName i j child
          let mut con : Constraint :=
            { Left := [⟨childFlowName, 1⟩], Comp := .LE, Right := [] }
          for parent in parents do
            let parentFlowName := MessageFlowName i j parent
            con := { con with Right := con.Right ++ [⟨parentFlowName, 1⟩] }
          cons := cons ++ [con]
  -- Add constraints that the sum of per-message flows has to be less than
  -- the edge capacity
  for edge in edges do
    for (i, bcast) in broadcasts.enum do
      let mut con : Constraint :=
        { Left := [], Comp := .LE, Right := [⟨Named.Name edge, 1⟩] }
      for (j, _) in bcast.enum do
        let name := MessageFlowName i j edge
        con := { con with Left := con.Left ++ [⟨name, 1⟩] }
      cons := cons ++ [con]
  -- Enforce the max flow constraints per message per receiver.
  -- First, non-negativity, and that the flow must be less than the message flow
  for (i, bcast) in broadcasts.enum do
    for (j, mess) in bcast.enum do
      for edge in edges do
        let mfn := MessageFlowName i j edge
        for receiver in mess.Receivers do
          let mefn := MessageReceiverFlowName i j receiver edge
          let mut con : Constraint :=
            { Left := [⟨mefn, 1⟩], Comp := .LE, Right := [⟨mfn, 1⟩] }
          cons := cons ++ [con]
          con := nonNegativity Constant mefn
          cons := cons ++ [con]
  -- Add constraint that outlets of source from this receiver must equal omega
  for (i, bcast) in broadcasts.enum do
    for (j, mess) in bcast.enum do
      let src := mess.Sender
      let children := graph.EdgesFrom src
      for receiver in mess.Receivers do
        let mut con : Constraint :=
          { Left := [], Comp := .EQ, Right := [⟨Constant, mess.Weight⟩] }
        for edge in children do
          let mefn := MessageReceiverFlowName i j receiver edge
          con := { con with Left := con.Left ++ [⟨mefn, 1⟩] }
        cons := cons ++ [con]
  -- Add constraint that parents of receiver must sum to omega
  for (i, bcast) in broadcasts.enum do
    for (j, mess) in bcast.enum do
      for receiver in mess.Receivers do
        let parents := graph.EdgesTo receiver
        let mut con : Constraint :=
          { Left := [], Comp := .EQ, Right := [⟨Constant, mess.Weight⟩] }
        for edge in parents do
          let mefn := MessageReceiverFlowName i j receiver edge
          con := { con with Left := con.Left ++ [⟨mefn, 1⟩] }
        cons := cons ++ [con]
  -- Add flow continuity constraints for all of the middle nodes
  for (i, bcast) in broadcasts.enum do
    for (j, mess) in bcast.enum do
      for receiver in mess.Receivers do
        for node in nodes do
          let parents := graph.EdgesTo node
          let children := graph.EdgesFrom node
          if parents.length = 0 ∨ children.length = 0 then
            continue
          let mut con : Constraint := { Left := [], Comp := .EQ, Right := [] }
          for edge in parents do
            let mefn := MessageReceiverFlowName i j receiver edge
            con := { con with Left := con.Left ++ [⟨mefn, 1⟩] }
          for edge in children do
            let mefn := MessageReceiverFlowName i j receiver edge
            con := { con with Right := con.Right ++ [⟨mefn, 1⟩] }
          cons := cons ++ [con]
  return { Objective := obj, Constraints := cons }

/-- ResponsibilityConstraints says that each node can only listen overall to certain
number (not per message). -/
def ResponsibilityConstraints {N E : Type} [Named E] (Constant : String)
    (graph : Graph N E) (listen tell : ℚ) : List Constraint := Id.run do
  let mut cons : List Constraint := []
  let nodes := graph.Nodes
  for node in nodes do
    let parents := graph.EdgesTo node
    if parents.length ≠ 0 then
      let mut con : Constraint :=
        { Left := [], Comp := .LE, Right := [⟨Constant, listen⟩] }
      for parent in parents do
        con := { con with Left := con.Left ++ [⟨Named.Name parent, 1⟩] }
      cons := cons ++ [con]
    let children := graph.EdgesFrom node
    if children.length ≠ 0 then
      let mut con : Constraint :=
        { Left := [], Comp := .LE, Right := [⟨Constant, tell⟩] }
      for child in children do
        con := { con with Left := con.Left ++ [⟨Named.Name child, 1⟩] }
      cons := cons ++ [con]
  return cons

/-! ## `fulledge.go`: the three-tier reference topology -/

/-- RelayerGraph forces communication through Relayers. -/
structure RelayerGraph where
  NumSender : Int
  NumRelayer : Int
  NumReceiver : Int
  RelayerEpsilon : ℚ

def edgesSenderToRelayers (sender : Sender) (nRelayer : Int) : List Edge := Id.run do
  let mut edges : List Edge := []
  for j in List.range nRelayer.toNat do
    let e : EdgeSR := { From := sender, To := ⟨j⟩ }
    edges := edges ++ [Edge.sr e]
  return edges

def edgesRelayerToReceivers (relayer : Relayer) (nReceiver : Int) : List Edge := Id.run do
  let mut edges : List Edge := []
  for j in List.range nReceiver.toNat do
    let e : EdgeRT := { From := relayer, To := ⟨j⟩ }
    edges := edges ++ [Edge.rt e]
  return edges

/-- Only talk to higher indexed relayers. The loop variable starts at
`int(relayer) + 1`, computed in 64-bit arithmetic, and runs while below `nRelayer`. -/
def edgesRelayerToRelayers (relayer : Relayer) (nRelayer : Int) : List Edge := Id.run do
  let mut edges : List Edge := []
  let start := wrapInt (relayer.idx + 1)
  for k in List.range (nRelayer - start).toNat do
    let j : Int := start + k
    let e : EdgeRR := { From := relayer, To := ⟨j⟩ }
    edges := edges ++ [Edge.rr e]
  return edges

def RelayerGraph.Edges (rg : RelayerGraph) : List Edge := Id.run do
  let mut edges : List Edge := []
  -- First, the senders can all talk to the relayers.
  for i in List.range rg.NumSender.toNat do
    let e := edgesSenderToRelayers ⟨i⟩ rg.NumRelayer
    edges := edges ++ e
  -- Next, the relayers to the receivers.
  for i in List.range rg.NumRelayer.toNat do
    let e := edgesRelayerToReceivers ⟨i⟩ rg.NumReceiver
    edges := edges ++ e
  -- Now, add an edge from relayer i to relayer j for j > i,
  for i in List.range rg.NumRelayer.toNat do
    let e := edgesRelayerToRelayers ⟨i⟩ rg.NumRelayer
    edges := edges ++ e
  return edges

/-- The cost of an edge; the `default: panic` branch of the type switch is
unreachable on the built-in variants. The `float64` costs are read as exact rationals:
the rounding of each product and sum is not modelled. -/
def RelayerGraph.EdgeCost (rg : RelayerGraph) (edge : Edge) : ℚ :=
  match edge with
  | .st _ => 1
  | .rt t => 1 + (t.From.idx : ℚ) * rg.RelayerEpsilon
  | .sr t => 1 + (t.To.idx : ℚ) * rg.RelayerEpsilon
  | .rr t => 1 + (t.From.idx : ℚ) * rg.RelayerEpsilon + (t.To.idx : ℚ) * rg.RelayerEpsilon

def RelayerGraph.Nodes (rg : RelayerGraph) : List Node := Id.run do
  let mut nodes : List Node := []
  for i in List.range rg.NumSender.toNat do
    nodes := nodes ++ [Node.sender ⟨i⟩]
  for i in List.range rg.NumRelayer.toNat do
    nodes := nodes ++ [Node.relayer ⟨i⟩]
  for i in List.range rg.NumReceiver.toNat do
    nodes := nodes ++ [Node.receiver ⟨i⟩]
  return nodes

def RelayerGraph.EdgesFrom (rg : RelayerGraph) (node : Node) : List Edge :=
  match node with
  | .sender t => edgesSenderToRelayers t rg.NumRelayer
  | .relayer t => Id.run do
    let mut edges : List Edge := []
    let mut e := edgesRelayerToReceivers t rg.NumReceiver
    edges := edges ++ e
    e := edgesRelayerToRelayers t rg.NumRelayer
    edges := edges ++ e
    return edges
  | .receiver _ => []

def RelayerGraph.EdgesTo (rg : RelayerGraph) (node : Node) : List Edge :=
  match node with
  | .sender _ => []
  | .relayer t => Id.run do
    let mut edges : List Edge := []
    -- The relayer is talked to by all senders, and by all relayers with
    -- a lower index.
    for i in List.range rg.NumSender.toNat do
      edges := edges ++ [Edge.sr { From := ⟨i⟩, To := t }]
    for i in List.range t.idx.toNat do
      edges := edges ++ [Edge.rr { From := ⟨i⟩, To := t }]
    return edges
  | .receiver t => Id.run do
    let mut edges : List Edge := []
    -- Talked to by all relayers
    for i in List.range rg.NumRelayer.toNat do
      edges := edges ++ [Edge.rt { From := ⟨i⟩, To := t }]
    return edges

/-- A `*RelayerGraph` used as a `Graph`. -/
def RelayerGraph.toGraph (rg : RelayerGraph) : Graph Node Edge :=
  { Nodes := rg.Nodes
    Edges := rg.Edges
    EdgeCost := rg.EdgeCost
    EdgesTo := rg.EdgesTo
    EdgesFrom := rg.EdgesFrom }

/-! ## `broadcasts.go`: demand generation -/

/-- SenderReceiverIndivPairs means that each sender must be able to send to each receiver. -/
def SenderReceiverIndivPairs (nSender nReceiver : Int) : List (Broadcast Node) := Id.run do
  let mut broadcasts : List (Broadcast Node) := []
  -- Each broadcast is only the one message.
  for i in List.range nSender.toNat do
    for j in List.range nReceiver.toNat do
      let mess : Message Node :=
        { Sender := Node.sender ⟨i⟩, Receivers := [Node.receiver ⟨j⟩], Weight := 1 }
      let broadcast : Broadcast Node := [mess]
      broadcasts := broadcasts ++ [broadcast]
  return broadcasts

/-! ## Go `int` range -/

/-- A Go `int` holds exactly the integers of the signed 64-bit range. -/
def IsInt64 (x : Int) : Prop := -2 ^ 63 ≤ x ∧ x < 2 ^ 63

instance (x : Int) : Decidable (IsInt64 x) := by unfold IsInt64; infer_instance

/-! ## Specification-side descriptions of the constraint families

The builder is one long loop nest. The definitions below restate, family by
family (§4.3 of the specification), what is expected of its output; the theorem
`BasicLP_Constraints` proves that the loop nest emits exactly these lists, in
this order. -/

/-- All messages with their positions: (broadcast index, message index, message). -/
def Spec.messages {N : Type} (broadcasts : List (Broadcast N)) : List (Nat × Nat × Message N) :=
  broadcasts.enum.flatMap fun ib => ib.2.enum.map fun jm => (ib.1, jm.1, jm.2)

/-- All (message, receiver) pairs with their positions; a receiver listed twice counts twice. -/
def Spec.pairs {N : Type} (broadcasts : List (Broadcast N)) :
    List (Nat × Nat × Message N × N) :=
  (Spec.messages broadcasts).flatMap fun p => p.2.2.Receivers.map fun r => (p.1, p.2.1, p.2.2, r)

/-- The term `1 * MessageFlowName(i, j, e)`. -/
def Spec.mfTerm {E : Type} [Named E] (i j : Nat) (e : E) : Term :=
  ⟨MessageFlowName i j e, 1⟩

/-- The term `1 * MessageReceiverFlowName(i, j, r, e)`. -/
def Spec.rfTerm {N E : Type} [Named N] [Named E] (i j : Nat) (r : N) (e : E) : Term :=
  ⟨MessageReceiverFlowName i j r e, 1⟩

/-- Family 1, capacities: `e.Name() >= 0` for every edge. -/
def Spec.capacityNonNeg {N E : Type} [Named E] (C : String) (g : Graph N E) : List Constraint :=
  g.Edges.map fun e => nonNegativity C (Named.Name e)

/-- Family 1, message flows: `MessageFlowName(i, j, e) >= 0` for every message and edge. -/
def Spec.flowNonNeg {N E : Type} [Named E] (C : String) (bs : List (Broadcast N))
    (g : Graph N E) : List Constraint :=
  (Spec.messages bs).flatMap fun p =>
    g.Edges.map fun e => nonNegativity C (MessageFlowName p.1 p.2.1 e)

/-- Family 2: message flow entering receiver `r` sums to the weight of message `m`. -/
def Spec.demandCon {N E : Type} [Named E] (C : String) (g : Graph N E) (i j : Nat)
    (m : Message N) (r : N) : Constraint :=
  { Left := (g.EdgesTo r).map fun e => Spec.mfTerm i j e, Comp := .EQ, Right := [⟨C, m.Weight⟩] }

/-- Family 2: one demand constraint per (message, receiver) pair. -/
def Spec.demandSatisfaction {N E : Type} [Named E] (C : String) (bs : List (Broadcast N))
    (g : Graph N E) : List Constraint :=
  (Spec.pairs bs).map fun p => Spec.demandCon C g p.1 p.2.1 p.2.2.1 p.2.2.2

/-- Family 3: each edge leaving the sender carries at most the message weight. -/
def Spec.sourceCap {N E : Type} [Named E] (C : String) (bs : List (Broadcast N))
    (g : Graph N E) : List Constraint :=
  (Spec.messages bs).flatMap fun p => (g.EdgesFrom p.2.2.Sender).map fun e =>
    { Left := [Spec.mfTerm p.1 p.2.1 e], Comp := .LE, Right := [⟨C, p.2.2.Weight⟩] }

/-- Family 4, first branch: `MessageFlowName(i, j, c) = 0`. -/
def Spec.zeroCon {E : Type} [Named E] (C : String) (i j : Nat) (c : E) : Constraint :=
  { Left := [Spec.mfTerm i j c], Comp := .EQ, Right := [⟨C, 0⟩] }

/-- Family 4, second branch: `MessageFlowName(i, j, c) <= sum of the flows entering n`. -/
def Spec.attenuationCon {N E : Type} [Named E] (g : Graph N E) (n : N) (i j : Nat) (c : E) :
    Constraint :=
  { Left := [Spec.mfTerm i j c], Comp := .LE,
    Right := (g.EdgesTo n).map fun p => Spec.mfTerm i j p }

/-- Family 4 at one node: nothing for a node without outgoing edges; for a node
without incoming edges the zero constraints of every message whose sender has a
different name; for every other node the attenuation constraints of every message. -/
def Spec.nodeConservation {N E : Type} [Named N] [Named E] (C : String)
    (bs : List (Broadcast N)) (g : Graph N E) (n : N) : List Constraint :=
  if (g.EdgesFrom n).length = 0 then []
  else if (g.EdgesTo n).length = 0 then
    (Spec.messages bs).flatMap fun p =>
      if Named.Name n = Named.Name p.2.2.Sender then []
      else (g.EdgesFrom n).map fun c => Spec.zeroCon C p.1 p.2.1 c
  else
    (Spec.messages bs).flatMap fun p =>
      (g.EdgesFrom n).map fun c => Spec.attenuationCon g n p.1 p.2.1 c

/-- Family 4: message-level conservation, node by node. -/
def Spec.conservation {N E : Type} [Named N] [Named E] (C : String) (bs : List (Broadcast N))
    (g : Graph N E) : List Constraint :=
  g.Nodes.flatMap fun n => Spec.nodeConservation C bs g n

/-- Family 5: the message flows of broadcast `i` on edge `e` sum to at most the capacity of `e`. -/
def Spec.capacityCon {N E : Type} [Named E] (i : Nat) (b : Broadcast N) (e : E) : Constraint :=
  { Left := (List.range b.length).map fun j => Spec.mfTerm i j e, Comp := .LE,
    Right := [⟨Named.Name e, 1⟩] }

/-- Family 5: one capacity constraint per edge and broadcast. -/
def Spec.sharedCapacity {N E : Type} [Named E] (bs : List (Broadcast N)) (g : Graph N E) :
    List Constraint :=
  g.Edges.flatMap fun e => bs.enum.map fun ib => Spec.capacityCon ib.1 ib.2 e

/-- Family 6, upper bound: receiver flow is at most the message flow on the same edge. -/
def Spec.boundCon {N E : Type} [Named N] [Named E] (i j : Nat) (r : N) (e : E) : Constraint :=
  { Left := [Spec.rfTerm i j r e], Comp := .LE, Right := [Spec.mfTerm i j e] }

/-- Family 6: for every message, edge and receiver, the bound and the non-negativity
of the receiver flow. -/
def Spec.receiverBounds {N E : Type} [Named N] [Named E] (C : String) (bs : List (Broadcast N))
    (g : Graph N E) : List Constraint :=
  (Spec.messages bs).flatMap fun p => g.Edges.flatMap fun e => p.2.2.Receivers.flatMap fun r =>
    [Spec.boundCon p.1 p.2.1 r e, nonNegativity C (MessageReceiverFlowName p.1 p.2.1 r e)]

/-- Family 7: receiver flow leaving the sender of `m` sums to the weight. -/
def Spec.sourceEqCon {N E : Type} [Named N] [Named E] (C : String) (g : Graph N E) (i j : Nat)
    (m : Message N) (r : N) : Constraint :=
  { Left := (g.EdgesFrom m.Sender).map fun e => Spec.rfTerm i j r e, Comp := .EQ,
    Right := [⟨C, m.Weight⟩] }

/-- Family 8: receiver flow entering the receiver sums to the weight. -/
def Spec.sinkEqCon {N E : Type} [Named N] [Named E] (C : String) (g : Graph N E) (i j : Nat)
    (m : Message N) (r : N) : Constraint :=
  { Left := (g.EdgesTo r).map fun e => Spec.rfTerm i j r e, Comp := .EQ,
    Right := [⟨C, m.Weight⟩] }

/-- Family 7: one source equality per (message, receiver) pair. -/
def Spec.receiverSource {N E : Type} [Named N] [Named E] (C : String) (bs : List (Broadcast N))
    (g : Graph N E) : List Constraint :=
  (Spec.pairs bs).map fun p => Spec.sourceEqCon C g p.1 p.2.1 p.2.2.1 p.2.2.2

/-- Family 8: one sink equality per (message, receiver) pair. -/
def Spec.receiverSink {N E : Type} [Named N] [Named E] (C : String) (bs : List (Broadcast N))
    (g : Graph N E) : List Constraint :=
  (Spec.pairs bs).map fun p => Spec.sinkEqCon C g p.1 p.2.1 p.2.2.1 p.2.2.2

/-- Family 9: receiver flow entering `n` equals receiver flow leaving `n`. -/
def Spec.continuityCon {N E : Type} [Named N] [Named E] (g : Graph N E) (i j : Nat) (r : N)
    (n : N) : Constraint :=
  { Left := (g.EdgesTo n).map fun e => Spec.rfTerm i j r e, Comp := .EQ,
    Right := (g.EdgesFrom n).map fun e => Spec.rfTerm i j r e }

/-- Family 9: for every (message, receiver) pair, the continuity constraint of every
node that has both an incoming and an outgoing edge. -/
def Spec.receiverConservation {N E : Type} [Named N] [Named E] (bs : List (Broadcast N))
    (g : Graph N E) : List Constraint :=
  (Spec.pairs bs).flatMap fun p => g.Nodes.flatMap fun n =>
    if (g.EdgesTo n).length = 0 ∨ (g.EdgesFrom n).length = 0 then []
    else [Spec.continuityCon g p.1 p.2.1 p.2.2.2 n]

/-! ## Sample inputs -/

/-- The concrete scenario of the specification: 2 senders, 1 relayer, 2 receivers. -/
def scenarioGraph : RelayerGraph :=
  { NumSender := 2, NumRelayer := 1, NumReceiver := 2, RelayerEpsilon := 1 / 100 }

/-- Sender 0 delivers weight 5 to receivers 0 and 1. -/
def scenarioMessage : Message Node :=
  { Sender := .sender ⟨0⟩, Receivers := [.receiver ⟨0⟩, .receiver ⟨1⟩], Weight := 5 }

/-- One broadcast holding the scenario message. -/
def scenarioBroadcasts : List (Broadcast Node) := [[scenarioMessage]]

/-- A stand-in value of the marker `lpwrap.Constant` for concrete evaluations. -/
def sampleConstant : String := "constant"

/-! ## Auxiliary definitions for the naming proofs -/

/-- Numeric value of a list of decimal digit characters, most significant first. -/
def digitsVal : List Char → Nat
  | [] => 0
  | c :: l => (c.toNat - 48) * 10 ^ l.length + digitsVal l

/-- The letter that starts the name of a built-in node. -/
def Node.tag : Node → Char
  | .sender _ => 's'
  | .relayer _ => 'r'
  | .receiver _ => 't'

/-- The fields of a `RelayerGraph` are Go `int`s. -/
def RelayerGraph.InRange (rg : RelayerGraph) : Prop :=
  IsInt64 rg.NumSender ∧ IsInt64 rg.NumRelayer ∧ IsInt64 rg.NumReceiver

instance (rg : RelayerGraph) : Decidable rg.InRange := by
  unfold RelayerGraph.InRange; infer_instance

/-- The variables of the model built for `bs` over `g`: the capacity of an edge of
`g.Edges`, the message flow of a message on such an edge, the receiver flow of a
(message, receiver) pair on such an edge. -/
def Spec.IsModelVar {N E : Type} [Named N] [Named E] (bs : List (Broadcast N)) (g : Graph N E)
    (name : String) : Prop :=
  (∃ e ∈ g.Edges, name = Named.Name e)
  ∨ (∃ (i j : Nat) (m : Message N), (i, j, m) ∈ Spec.messages bs ∧
      ∃ e ∈ g.Edges, name = MessageFlowName i j e)
  ∨ (∃ (i j : Nat) (m : Message N) (r : N), (i, j, m, r) ∈ Spec.pairs bs ∧
      ∃ e ∈ g.Edges, name = MessageReceiverFlowName i j r e)

/-! ## Reading a constraint under an assignment -/

/-- Value of a term under an assignment of the variables: a `Constant` term contributes
its coefficient, any other term its coefficient times the value of its variable. -/
def Term.value (Constant : String) (a : String → ℚ) (t : Term) : ℚ :=
  if t.Var = Constant then t.Coeff else t.Coeff * a t.Var

/-- Value of a sum of terms. -/
def termsValue (Constant : String) (a : String → ℚ) (ts : List Term) : ℚ :=
  (ts.map (Term.value Constant a)).sum

/-- A constraint holds when its left sum compares as stated with its right sum. -/
def Constraint.Holds (Constant : String) (a : String → ℚ) (c : Constraint) : Prop :=
  match c.Comp with
  | .LE => termsValue Constant a c.Left ≤ termsValue Constant a c.Right
  | .EQ => termsValue Constant a c.Left = termsValue Constant a c.Right
  | .GE => termsValue Constant a c.Left ≥ termsValue Constant a c.Right

/-- An assignment satisfies a model when every constraint holds. -/
def LP.Satisfied (Constant : String) (a : String → ℚ) (lp : LP) : Prop :=
  ∀ c ∈ lp.Constraints, c.Holds Constant a

/-- The marker `Constant` is reserved: it is not the name of a capacity, message-flow or
receiver-flow variable over the node type `N` and the edge type `E`. -/
def Spec.Reserved (N E : Type) [Named N] [Named E] (Constant : String) : Prop :=
  (∀ e : E, Named.Name e ≠ Constant)
  ∧ (∀ (i j : Int) (e : E), MessageFlowName i j e ≠ Constant)
  ∧ (∀ (i j : Int) (r : N) (e : E), MessageReceiverFlowName i j r e ≠ Constant)

/-- A feasible point of the scenario model that shares the trunk edge s0 -> r0: capacity,
message flow and both receivers' flows are 5 on the trunk, each receiver's flow is 5 on its
own last edge, everything else is 0. -/
def scenarioFlow (s : String) : ℚ :=
  if s ∈ ["es0r0", "er0t0", "er0t1", "b0m0es0r0", "b0m0er0t0", "b0m0er0t1",
      "b0m0es0r0_t0", "b0m0es0r0_t1", "b0m0er0t0_t0", "b0m0er0t1_t1"] then 5 else 0

/-- The linear program the constraint families stand for, as conditions on an assignment
`a` of values to variable names: one clause per constraint family of §4.3. -/
def Spec.Feasible {N E : Type} [Named N] [Named E] (a : String → ℚ)
    (bs : List (Broadcast N)) (g : Graph N E) : Prop :=
  (∀ e ∈ g.Edges, a (Named.Name e) ≥ 0)
  ∧ (∀ p ∈ Spec.messages bs, ∀ e ∈ g.Edges, a (MessageFlowName p.1 p.2.1 e) ≥ 0)
  ∧ (∀ p ∈ Spec.pairs bs,
      ((g.EdgesTo p.2.2.2).map fun e => a (MessageFlowName p.1 p.2.1 e)).sum = p.2.2.1.Weight)
  ∧ (∀ p ∈ Spec.messages bs, ∀ e ∈ g.EdgesFrom p.2.2.Sender,
      a (MessageFlowName p.1 p.2.1 e) ≤ p.2.2.Weight)
  ∧ (∀ n ∈ g.Nodes, ∀ p ∈ Spec.messages bs, ∀ c ∈ g.EdgesFrom n,
      if (g.EdgesTo n).length = 0 then
        (Named.Name n = Named.Name p.2.2.Sender ∨ a (MessageFlowName p.1 p.2.1 c) = 0)
      else
        a (MessageFlowName p.1 p.2.1 c)
          ≤ ((g.EdgesTo n).map fun q => a (MessageFlowName p.1 p.2.1 q)).sum)
  ∧ (∀ e ∈ g.Edges, ∀ ib ∈ bs.enum,
      ((List.range ib.2.length).map fun (j : Nat) => a (MessageFlowName ib.1 j e)).sum
        ≤ a (Named.Name e))
  ∧ (∀ p ∈ Spec.pairs bs, ∀ e ∈ g.Edges,
      a (MessageReceiverFlowName p.1 p.2.1 p.2.2.2 e) ≤ a (MessageFlowName p.1 p.2.1 e)
      ∧ a (MessageReceiverFlowName p.1 p.2.1 p.2.2.2 e) ≥ 0)
  ∧ (∀ p ∈ Spec.pairs bs,
      ((g.EdgesFrom p.2.2.1.Sender).map
        fun e => a (MessageReceiverFlowName p.1 p.2.1 p.2.2.2 e)).sum = p.2.2.1.Weight)
  ∧ (∀ p ∈ Spec.pairs bs,
      ((g.EdgesTo p.2.2.2).map
        fun e => a (MessageReceiverFlowName p.1 p.2.1 p.2.2.2 e)).sum = p.2.2.1.Weight)
  ∧ (∀ p ∈ Spec.pairs bs, ∀ n ∈ g.Nodes,
      (g.EdgesTo n).length = 0 ∨ (g.EdgesFrom n).length = 0 ∨
      ((g.EdgesTo n).map fun e => a (MessageReceiverFlowName p.1 p.2.1 p.2.2.2 e)).sum
        = ((g.EdgesFrom n).map fun e => a (MessageReceiverFlowName p.1 p.2.1 p.2.2.2 e)).sum)

instance {N E : Type} [Named N] [Named E] (a : String → ℚ) (bs : List (Broadcast N))
    (g : Graph N E) : Decidable (Spec.Feasible a bs g) := by
  unfold Spec.Feasible; infer_instance

/-! ## Auxiliary definitions for the acyclicity proof -/

/-- A height on the nodes of a `RelayerGraph` that every edge of `Edges()` climbs:
senders lie below all relayers, relayers are ordered by index, receivers lie above. -/
def RelayerGraph.rank (rg : RelayerGraph) : Node → Int
  | .sender _ => -1
  | .relayer r => r.idx
  | .receiver _ => rg.NumRelayer

/-! ## Malformed messages -/

/-- A message with an empty receiver list. -/
def emptyReceiversMessage : Message Node :=
  { Sender := .sender ⟨0⟩, Receivers := [], Weight := 5 }

/-- A message whose weight is not positive. -/
def nonPositiveWeightMessage : Message Node :=
  { Sender := .sender ⟨0⟩, Receivers := [.receiver ⟨0⟩], Weight := -1 }

/-- A message that lists receiver 0 twice. -/
def duplicateReceiverMessage : Message Node :=
  { Sender := .sender ⟨0⟩, Receivers := [.receiver ⟨0⟩, .receiver ⟨0⟩], Weight := 5 }

/-- The string `s` starts with "b", the decimal digits of `i` and "m": it carries the
broadcast index `i` the way `MessageFlowName` and `MessageReceiverFlowName` write it. -/
def Spec.HasBroadcastIndex (i : Nat) (s : String) : Prop :=
  ∃ rest : List Char, s.data = 'b' :: ((Itoa i).data ++ 'm' :: rest)

/-- The shape of a capacity constraint of the edge named `s`: comparator `<=` and right
side the single term `(s, 1)`. -/
def Spec.isCapacityOf (s : String) (c : Constraint) : Bool :=
  decide (c.Comp = Comparison.LE ∧ c.Right = [⟨s, 1⟩])

/-! # Theorems -/

/-! ## The loops of the builder as list comprehensions -/

theorem forIn_yield_append {α β : Type} (l : List α) (init : List β) (f : α → List β) :
    forIn (m := Id) l init (fun a r => ForInStep.yield (r ++ f a)) = init ++ l.flatMap f := by
  induction l generalizing init with
  | nil => simp
  | cons a l ih =>
    simp only [List.forIn_cons, List.flatMap_cons]
    show forIn l (init ++ f a) _ = _
    rw [ih, List.append_assoc]

theorem forIn_yield_left {α : Type} (l : List α) (init : Constraint) (t : α → Term) :
    forIn (m := Id) l init
      (fun a r => ForInStep.yield { Left := r.Left ++ [t a], Comp := r.Comp, Right := r.Right })
      = { Left := init.Left ++ l.map t, Comp := init.Comp, Right := init.Right } := by
  induction l generalizing init with
  | nil => simp
  | cons a l ih =>
    simp only [List.forIn_cons, List.map_cons]
    show forIn l _ _ = _
    rw [ih]; simp

theorem forIn_yield_right {α : Type} (l : List α) (init : Constraint) (t : α → Term) :
    forIn (m := Id) l init
      (fun a r => ForInStep.yield { Left := r.Left, Comp := r.Comp, Right := r.Right ++ [t a] })
      = { Left := init.Left, Comp := init.Comp, Right := init.Right ++ l.map t } := by
  induction l generalizing init with
  | nil => simp
  | cons a l ih =>
    simp only [List.forIn_cons, List.map_cons]
    show forIn l _ _ = _
    rw [ih]; simp

theorem enum_map_fst_comp {α β : Type} (l : List α) (f : Nat → β) :
    (List.range l.length).map f = l.enum.map (fun x => f x.1) := by
  rw [← List.enum_map_fst, List.map_map]; rfl

theorem ite_yield {β : Type} (c : Prop) [Decidable c] (a b : β) :
    @ite (Id (ForInStep β)) c _ (ForInStep.yield a) (ForInStep.yield b)
      = ForInStep.yield (if c then a else b) := by
  split <;> rfl

theorem ite_self_append {β : Type} (c : Prop) [Decidable c] (r x : List β) :
    (if c then r else r ++ x) = r ++ (if c then [] else x) := by
  split <;> simp

theorem ite_append_append {β : Type} (c : Prop) [Decidable c] (r x y : List β) :
    (if c then r ++ x else r ++ y) = r ++ (if c then x else y) := by
  split <;> simp

/-- The constraint list of `BasicLP` is the concatenation of the ten families. -/
theorem BasicLP_Constraints {N E : Type} [Named N] [Named E] (C : String)
    (bs : List (Broadcast N)) (g : Graph N E) :
    (BasicLP C bs g).Constraints =
      Spec.capacityNonNeg C g ++ (Spec.flowNonNeg C bs g ++ (Spec.demandSatisfaction C bs g ++
      (Spec.sourceCap C bs g ++ (Spec.conservation C bs g ++ (Spec.sharedCapacity bs g ++
      (Spec.receiverBounds C bs g ++ (Spec.receiverSource C bs g ++
      (Spec.receiverSink C bs g ++ Spec.receiverConservation bs g)))))))) := by
  unfold BasicLP
  simp only [Id.run, Id.bind_eq, Id.pure_eq, bind, pure, forIn_yield_append, forIn_yield_left,
    forIn_yield_right, ite_yield, ite_self_append, ite_append_append, List.append_assoc,
    List.nil_append, List.singleton_append]
  simp only [Spec.capacityNonNeg, Spec.flowNonNeg, Spec.demandSatisfaction, Spec.sourceCap,
    Spec.conservation, Spec.nodeConservation, Spec.sharedCapacity, Spec.receiverBounds,
    Spec.receiverSource, Spec.receiverSink, Spec.receiverConservation, Spec.messages, Spec.pairs,
    Spec.demandCon, Spec.zeroCon, Spec.attenuationCon, Spec.capacityCon, Spec.sourceEqCon,
    Spec.sinkEqCon, Spec.continuityCon, Spec.boundCon, Spec.mfTerm, Spec.rfTerm,
    Function.comp_def, enum_map_fst_comp]
  simp only [List.flatMap_assoc, List.map_flatMap, List.flatMap_map,
    List.map_eq_flatMap, List.flatMap_singleton, List.nil_append, List.singleton_append,
    Spec.zeroCon, Spec.attenuationCon, Spec.mfTerm, Spec.rfTerm, Spec.boundCon]

/-- The objective of `BasicLP` is `makeObjective` of the edge list. -/
theorem BasicLP_Objective {N E : Type} [Named N] [Named E] (C : String)
    (bs : List (Broadcast N)) (g : Graph N E) :
    (BasicLP C bs g).Objective = makeObjective g.Edges g := by
  unfold BasicLP
  simp only [Id.run, Id.bind_eq, Id.pure_eq, bind, pure]

theorem Spec.mem_messages {N : Type} (bs : List (Broadcast N)) (i j : Nat) (m : Message N) :
    (i, j, m) ∈ Spec.messages bs ↔ ∃ b, bs[i]? = some b ∧ b[j]? = some m := by
  simp only [Spec.messages, List.mem_flatMap, List.mem_map, Prod.exists, Prod.mk.injEq,
    List.mk_mem_enum_iff_getElem?]
  constructor
  · rintro ⟨i', b, hb, j', m', hm, rfl, rfl, rfl⟩
    exact ⟨b, hb, hm⟩
  · rintro ⟨b, hb, hm⟩
    exact ⟨i, b, hb, j, m, hm, rfl, rfl, rfl⟩

theorem Spec.mem_pairs {N : Type} (bs : List (Broadcast N)) (i j : Nat) (m : Message N) (r : N) :
    (i, j, m, r) ∈ Spec.pairs bs ↔
      (∃ b, bs[i]? = some b ∧ b[j]? = some m) ∧ r ∈ m.Receivers := by
  rw [← Spec.mem_messages]
  simp only [Spec.pairs, List.mem_flatMap, List.mem_map, Prod.exists, Prod.mk.injEq]
  constructor
  · rintro ⟨i', j', m', hm, r', hr, rfl, rfl, rfl, rfl⟩
    exact ⟨hm, hr⟩
  · rintro ⟨hm, hr⟩
    exact ⟨i, j, m, hm, r, hr, rfl, rfl, rfl, rfl⟩

/-! ## The constraint families inside the output of `BasicLP` -/

theorem BasicLP_block_demand {N E : Type} [Named N] [Named E] (C : String)
    (bs : List (Broadcast N)) (g : Graph N E) :
    ∃ pre post, (BasicLP C bs g).Constraints = pre ++ Spec.demandSatisfaction C bs g ++ post :=
  ⟨Spec.capacityNonNeg C g ++ Spec.flowNonNeg C bs g, _, by
    rw [BasicLP_Constraints]; simp only [List.append_assoc]; rfl⟩

theorem BasicLP_block_conservation {N E : Type} [Named N] [Named E] (C : String)
    (bs : List (Broadcast N)) (g : Graph N E) :
    ∃ pre post, (BasicLP C bs g).Constraints = pre ++ Spec.conservation C bs g ++ post :=
  ⟨Spec.capacityNonNeg C g ++ (Spec.flowNonNeg C bs g ++ (Spec.demandSatisfaction C bs g ++
      Spec.sourceCap C bs g)), _, by
    rw [BasicLP_Constraints]; simp only [List.append_assoc]; rfl⟩

theorem BasicLP_block_sharedCapacity {N E : Type} [Named N] [Named E] (C : String)
    (bs : List (Broadcast N)) (g : Graph N E) :
    ∃ pre post, (BasicLP C bs g).Constraints = pre ++ Spec.sharedCapacity bs g ++ post :=
  ⟨Spec.capacityNonNeg C g ++ (Spec.flowNonNeg C bs g ++ (Spec.demandSatisfaction C bs g ++
      (Spec.sourceCap C bs g ++ Spec.conservation C bs g))), _, by
    rw [BasicLP_Constraints]; simp only [List.append_assoc]; rfl⟩

theorem BasicLP_block_receiverSource {N E : Type} [Named N] [Named E] (C : String)
    (bs : List (Broadcast N)) (g : Graph N E) :
    ∃ pre post, (BasicLP C bs g).Constraints = pre ++ Spec.receiverSource C bs g ++ post :=
  ⟨Spec.capacityNonNeg C g ++ (Spec.flowNonNeg C bs g ++ (Spec.demandSatisfaction C bs g ++
      (Spec.sourceCap C bs g ++ (Spec.conservation C bs g ++ (Spec.sharedCapacity bs g ++
      Spec.receiverBounds C bs g))))), _, by
    rw [BasicLP_Constraints]; simp only [List.append_assoc]; rfl⟩

theorem BasicLP_block_receiverSink {N E : Type} [Named N] [Named E] (C : String)
    (bs : List (Broadcast N)) (g : Graph N E) :
    ∃ pre post, (BasicLP C bs g).Constraints = pre ++ Spec.receiverSink C bs g ++ post :=
  ⟨Spec.capacityNonNeg C g ++ (Spec.flowNonNeg C bs g ++ (Spec.demandSatisfaction C bs g ++
      (Spec.sourceCap C bs g ++ (Spec.conservation C bs g ++ (Spec.sharedCapacity bs g ++
      (Spec.receiverBounds C bs g ++ Spec.receiverSource C bs g)))))), _, by
    rw [BasicLP_Constraints]; simp only [List.append_assoc]; rfl⟩

theorem BasicLP_block_receiverConservation {N E : Type} [Named N] [Named E] (C : String)
    (bs : List (Broadcast N)) (g : Graph N E) :
    ∃ pre, (BasicLP C bs g).Constraints = pre ++ Spec.receiverConservation bs g :=
  ⟨Spec.capacityNonNeg C g ++ (Spec.flowNonNeg C bs g ++ (Spec.demandSatisfaction C bs g ++
      (Spec.sourceCap C bs g ++ (Spec.conservation C bs g ++ (Spec.sharedCapacity bs g ++
      (Spec.receiverBounds C bs g ++ (Spec.receiverSource C bs g ++
      Spec.receiverSink C bs g))))))), by
    rw [BasicLP_Constraints]; simp only [List.append_assoc]⟩

/-- Membership in the constraint list, family by family. -/
theorem mem_BasicLP_Constraints {N E : Type} [Named N] [Named E] (C : String)
    (bs : List (Broadcast N)) (g : Graph N E) (c : Constraint) :
    c ∈ (BasicLP C bs g).Constraints ↔
      c ∈ Spec.capacityNonNeg C g ∨ c ∈ Spec.flowNonNeg C bs g ∨
      c ∈ Spec.demandSatisfaction C bs g ∨ c ∈ Spec.sourceCap C bs g ∨
      c ∈ Spec.conservation C bs g ∨ c ∈ Spec.sharedCapacity bs g ∨
      c ∈ Spec.receiverBounds C bs g ∨ c ∈ Spec.receiverSource C bs g ∨
      c ∈ Spec.receiverSink C bs g ∨ c ∈ Spec.receiverConservation bs g := by
  rw [BasicLP_Constraints]
  simp only [List.mem_append]

/-- C1 (demand satisfaction). For every message `(i, j)` of the broadcast list and every
receiver `r` listed in it, the constraints returned by `BasicLP` contain the equality whose
left side is one coefficient-1 term `MessageFlowName(i, j, e)` per edge `e` of
`graph.EdgesTo(r)`, in that order, and whose right side is the constant message weight;
and the demand loop emits exactly one such constraint per (message, receiver) pair: its
output is a contiguous block of the constraint list, the image of the list of pairs. -/
theorem C1_demand_satisfaction {N E : Type} [Named N] [Named E] (Constant : String)
    (broadcasts : List (Broadcast N)) (graph : Graph N E) (i j : Nat)
    (bcast : Broadcast N) (mess : Message N) (r : N)
    (hi : broadcasts[i]? = some bcast) (hj : bcast[j]? = some mess) (hr : r ∈ mess.Receivers) :
    ({ Left := (graph.EdgesTo r).map fun e => ⟨MessageFlowName i j e, 1⟩,
       Comp := .EQ, Right := [⟨Constant, mess.Weight⟩] } : Constraint)
        ∈ (BasicLP Constant broadcasts graph).Constraints
    ∧ ∃ pre post, (BasicLP Constant broadcasts graph).Constraints
        = pre ++ (Spec.pairs broadcasts).map
            (fun p => Spec.demandCon Constant graph p.1 p.2.1 p.2.2.1 p.2.2.2) ++ post := by
  refine ⟨?_, BasicLP_block_demand Constant broadcasts graph⟩
  rw [mem_BasicLP_Constraints]
  refine Or.inr (Or.inr (Or.inl ?_))
  exact List.mem_map.2 ⟨(i, j, mess, r), (Spec.mem_pairs _ _ _ _ _).2 ⟨⟨bcast, hi, hj⟩, hr⟩, rfl⟩

set_option maxRecDepth 100000 in
theorem C1_demand_satisfaction_witness :
    ({ Left := [⟨"b0m0er0t1", 1⟩], Comp := .EQ, Right := [⟨sampleConstant, 5⟩] } : Constraint)
      ∈ (BasicLP sampleConstant scenarioBroadcasts scenarioGraph.toGraph).Constraints :=
  (C1_demand_satisfaction sampleConstant scenarioBroadcasts scenarioGraph.toGraph 0 0
    [scenarioMessage] scenarioMessage (.receiver ⟨1⟩) rfl rfl (by decide)).1

set_option maxRecDepth 100000 in
/-- C3, counterexample. In the scenario graph, sender 0 is a node with an outgoing edge
and no incoming edge, and it is the sender of message (0, 0): the "otherwise" branch of the
claim demands the constraint `b0m0es0r0 <= (empty sum)`, which `BasicLP` does not emit. -/
theorem C3_counterexample :
    Node.sender ⟨0⟩ ∈ scenarioGraph.toGraph.Nodes
    ∧ scenarioGraph.toGraph.EdgesFrom (Node.sender ⟨0⟩) ≠ []
    ∧ scenarioBroadcasts[0]? = some [scenarioMessage]
    ∧ [scenarioMessage][0]? = some scenarioMessage
    ∧ ¬ (scenarioGraph.toGraph.EdgesTo (Node.sender ⟨0⟩) = []
          ∧ Node.sender ⟨0⟩ ≠ scenarioMessage.Sender)
    ∧ Edge.sr ⟨⟨0⟩, ⟨0⟩⟩ ∈ scenarioGraph.toGraph.EdgesFrom (Node.sender ⟨0⟩)
    ∧ ({ Left := [⟨MessageFlowName 0 0 (Edge.sr ⟨⟨0⟩, ⟨0⟩⟩), 1⟩], Comp := .LE,
         Right := (scenarioGraph.toGraph.EdgesTo (Node.sender ⟨0⟩)).map
           fun p => ⟨MessageFlowName 0 0 p, 1⟩ } : Constraint)
        ∉ (BasicLP sampleConstant scenarioBroadcasts scenarioGraph.toGraph).Constraints := by
  decide

/-- C3, amended (message-level conservation). For every node `n` of `graph.Nodes()` with at
least one outgoing edge and every message `(i, j)`: if `n` has no incoming edge and its name
differs from the name of the message's sender, `BasicLP` contains `MessageFlowName(i,j,c) = 0`
for every outgoing edge `c` of `n`; if `n` has at least one incoming edge, `BasicLP` contains
`MessageFlowName(i,j,c) <= sum over the incoming edges p of MessageFlowName(i,j,p)` for every
outgoing edge `c`. The conservation loop emits exactly `Spec.nodeConservation` node by node,
which holds nothing for a node without incoming edges and a message it is (by name) the
sender of. -/
theorem C3_message_conservation {N E : Type} [Named N] [Named E] (Constant : String)
    (broadcasts : List (Broadcast N)) (graph : Graph N E) (n : N) (i j : Nat)
    (bcast : Broadcast N) (mess : Message N)
    (hn : n ∈ graph.Nodes) (hout : graph.EdgesFrom n ≠ [])
    (hi : broadcasts[i]? = some bcast) (hj : bcast[j]? = some mess) :
    (graph.EdgesTo n = [] → Named.Name n ≠ Named.Name mess.Sender →
      ∀ c ∈ graph.EdgesFrom n,
        ({ Left := [⟨MessageFlowName i j c, 1⟩], Comp := .EQ, Right := [⟨Constant, 0⟩] }
          : Constraint) ∈ (BasicLP Constant broadcasts graph).Constraints)
    ∧ (graph.EdgesTo n ≠ [] →
      ∀ c ∈ graph.EdgesFrom n,
        ({ Left := [⟨MessageFlowName i j c, 1⟩], Comp := .LE,
           Right := (graph.EdgesTo n).map fun p => ⟨MessageFlowName i j p, 1⟩ }
          : Constraint) ∈ (BasicLP Constant broadcasts graph).Constraints)
    ∧ (∃ pre post, (BasicLP Constant broadcasts graph).Constraints
        = pre ++ (graph.Nodes.flatMap fun n => Spec.nodeConservation Constant broadcasts graph n)
            ++ post) := by
  have hm : (i, j, mess) ∈ Spec.messages broadcasts :=
    (Spec.mem_messages _ _ _ _).2 ⟨bcast, hi, hj⟩
  have hlen : ¬ (graph.EdgesFrom n).length = 0 := by
    simpa [List.length_eq_zero] using hout
  refine ⟨?_, ?_, BasicLP_block_conservation Constant broadcasts graph⟩
  · intro hto hname c hc
    rw [mem_BasicLP_Constraints]
    refine Or.inr (Or.inr (Or.inr (Or.inr (Or.inl ?_))))
    simp only [Spec.conservation, List.mem_flatMap]
    refine ⟨n, hn, ?_⟩
    simp only [Spec.nodeConservation, hlen, hto, List.length_nil, if_true, if_false,
      List.mem_flatMap]
    refine ⟨(i, j, mess), hm, ?_⟩
    simp only [hname, if_false, List.mem_map]
    exact ⟨c, hc, rfl⟩
  · intro hto c hc
    have hlen2 : ¬ (graph.EdgesTo n).length = 0 := by
      simpa [List.length_eq_zero] using hto
    rw [mem_BasicLP_Constraints]
    refine Or.inr (Or.inr (Or.inr (Or.inr (Or.inl ?_))))
    simp only [Spec.conservation, List.mem_flatMap]
    refine ⟨n, hn, ?_⟩
    simp only [Spec.nodeConservation, hlen, hlen2, if_false, List.mem_flatMap, List.mem_map]
    exact ⟨(i, j, mess), hm, c, hc, rfl⟩

set_option maxRecDepth 100000 in
theorem C3_message_conservation_witness :
    (({ Left := [⟨"b0m0es1r0", 1⟩], Comp := .EQ, Right := [⟨sampleConstant, 0⟩] } : Constraint)
        ∈ (BasicLP sampleConstant scenarioBroadcasts scenarioGraph.toGraph).Constraints)
    ∧ (({ Left := [⟨"b0m0er0t1", 1⟩], Comp := .LE,
          Right := [⟨"b0m0es0r0", 1⟩, ⟨"b0m0es1r0", 1⟩] } : Constraint)
        ∈ (BasicLP sampleConstant scenarioBroadcasts scenarioGraph.toGraph).Constraints) :=
  ⟨(C3_message_conservation sampleConstant scenarioBroadcasts scenarioGraph.toGraph
      (Node.sender ⟨1⟩) 0 0 [scenarioMessage] scenarioMessage (by decide) (by decide) rfl rfl).1
      (by decide) (by decide) (Edge.sr ⟨⟨1⟩, ⟨0⟩⟩) (by decide),
   (C3_message_conservation sampleConstant scenarioBroadcasts scenarioGraph.toGraph
      (Node.relayer ⟨0⟩) 0 0 [scenarioMessage] scenarioMessage (by decide) (by decide) rfl rfl).2.1
      (by decide) (Edge.rt ⟨⟨0⟩, ⟨1⟩⟩) (by decide)⟩

/-- C4 (per-receiver endpoint equalities). For every message `(i, j)` with sender `s` and
weight `w` and every receiver `r` listed in it, `BasicLP` contains both the equality
`sum over e in EdgesFrom(s) of MessageReceiverFlowName(i,j,r,e) = w` and the equality
`sum over e in EdgesTo(r) of MessageReceiverFlowName(i,j,r,e) = w`, all coefficients 1 and
the weight a constant right side; each of the two loops emits one constraint per
(message, receiver) pair, as a contiguous block of the constraint list. -/
theorem C4_receiver_endpoint_equalities {N E : Type} [Named N] [Named E] (Constant : String)
    (broadcasts : List (Broadcast N)) (graph : Graph N E) (i j : Nat)
    (bcast : Broadcast N) (mess : Message N) (r : N)
    (hi : broadcasts[i]? = some bcast) (hj : bcast[j]? = some mess) (hr : r ∈ mess.Receivers) :
    (({ Left := (graph.EdgesFrom mess.Sender).map
          fun e => ⟨MessageReceiverFlowName i j r e, 1⟩,
        Comp := .EQ, Right := [⟨Constant, mess.Weight⟩] } : Constraint)
        ∈ (BasicLP Constant broadcasts graph).Constraints)
    ∧ (({ Left := (graph.EdgesTo r).map fun e => ⟨MessageReceiverFlowName i j r e, 1⟩,
          Comp := .EQ, Right := [⟨Constant, mess.Weight⟩] } : Constraint)
        ∈ (BasicLP Constant broadcasts graph).Constraints)
    ∧ (∃ pre post, (BasicLP Constant broadcasts graph).Constraints
        = pre ++ (Spec.pairs broadcasts).map
            (fun p => Spec.sourceEqCon Constant graph p.1 p.2.1 p.2.2.1 p.2.2.2) ++ post)
    ∧ (∃ pre post, (BasicLP Constant broadcasts graph).Constraints
        = pre ++ (Spec.pairs broadcasts).map
            (fun p => Spec.sinkEqCon Constant graph p.1 p.2.1 p.2.2.1 p.2.2.2) ++ post) := by
  have hp : (i, j, mess, r) ∈ Spec.pairs broadcasts :=
    (Spec.mem_pairs _ _ _ _ _).2 ⟨⟨bcast, hi, hj⟩, hr⟩
  refine ⟨?_, ?_, BasicLP_block_receiverSource Constant broadcasts graph,
    BasicLP_block_receiverSink Constant broadcasts graph⟩
  · rw [mem_BasicLP_Constraints]
    refine Or.inr (Or.inr (Or.inr (Or.inr (Or.inr (Or.inr (Or.inr (Or.inl ?_)))))))
    exact List.mem_map.2 ⟨(i, j, mess, r), hp, rfl⟩
  · rw [mem_BasicLP_Constraints]
    refine Or.inr (Or.inr (Or.inr (Or.inr (Or.inr (Or.inr (Or.inr (Or.inr (Or.inl ?_))))))))
    exact List.mem_map.2 ⟨(i, j, mess, r), hp, rfl⟩

set_option maxRecDepth 100000 in
theorem C4_receiver_endpoint_equalities_witness :
    (({ Left := [⟨"b0m0es0r0_t1", 1⟩], Comp := .EQ, Right := [⟨sampleConstant, 5⟩] }
        : Constraint)
        ∈ (BasicLP sampleConstant scenarioBroadcasts scenarioGraph.toGraph).Constraints)
    ∧ (({ Left := [⟨"b0m0er0t1_t1", 1⟩], Comp := .EQ, Right := [⟨sampleConstant, 5⟩] }
        : Constraint)
        ∈ (BasicLP sampleConstant scenarioBroadcasts scenarioGraph.toGraph).Constraints) :=
  ⟨(C4_receiver_endpoint_equalities sampleConstant scenarioBroadcasts scenarioGraph.toGraph 0 0
      [scenarioMessage] scenarioMessage (.receiver ⟨1⟩) rfl rfl (by decide)).1,
   (C4_receiver_endpoint_equalities sampleConstant scenarioBroadcasts scenarioGraph.toGraph 0 0
      [scenarioMessage] scenarioMessage (.receiver ⟨1⟩) rfl rfl (by decide)).2.1⟩

/-- A one-element list holding a `Constant` term is not a list of receiver-flow terms,
as long as the marker is not itself a receiver-flow name. -/
theorem const_ne_map_rfTerm {N E : Type} [Named N] [Named E] (C : String)
    (hC : ∀ (i j : Int) (r : N) (e : E), MessageReceiverFlowName i j r e ≠ C)
    (w : ℚ) (i j : Nat) (r : N) (l : List E) :
    [(⟨C, w⟩ : Term)] ≠ l.map fun e => (⟨MessageReceiverFlowName i j r e, 1⟩ : Term) := by
  intro h
  cases l with
  | nil => simp at h
  | cons e l =>
    simp only [List.map_cons, List.cons.injEq, Term.mk.injEq] at h
    exact hC i j r e h.1.1.symm

/-- C5 (per-receiver strict conservation). Provided the marker `Constant` is not itself the
name of a receiver-flow variable: for every message `(i, j)`, every receiver `r` listed in
it and every node `n` of `graph.Nodes()`, `BasicLP` contains the equality
`(sum over incoming edges p of n of MessageReceiverFlowName(i,j,r,p)) =
 (sum over outgoing edges c of n of MessageReceiverFlowName(i,j,r,c))`
if and only if `n` has at least one incoming and at least one outgoing edge. -/
theorem C5_receiver_conservation {N E : Type} [Named N] [Named E] (Constant : String)
    (broadcasts : List (Broadcast N)) (graph : Graph N E) (i j : Nat)
    (bcast : Broadcast N) (mess : Message N) (r n : N)
    (hC : ∀ (i j : Int) (r : N) (e : E), MessageReceiverFlowName i j r e ≠ Constant)
    (hi : broadcasts[i]? = some bcast) (hj : bcast[j]? = some mess) (hr : r ∈ mess.Receivers)
    (hn : n ∈ graph.Nodes) :
    ({ Left := (graph.EdgesTo n).map fun p => ⟨MessageReceiverFlowName i j r p, 1⟩,
       Comp := .EQ,
       Right := (graph.EdgesFrom n).map fun c => ⟨MessageReceiverFlowName i j r c, 1⟩ }
        : Constraint) ∈ (BasicLP Constant broadcasts graph).Constraints
      ↔ (graph.EdgesTo n ≠ [] ∧ graph.EdgesFrom n ≠ []) := by
  have hp : (i, j, mess, r) ∈ Spec.pairs broadcasts :=
    (Spec.mem_pairs _ _ _ _ _).2 ⟨⟨bcast, hi, hj⟩, hr⟩
  rw [mem_BasicLP_Constraints]
  constructor
  · intro h
    rcases h with h | h | h | h | h | h | h | h | h | h
    · simp [Spec.capacityNonNeg, nonNegativity] at h
    · simp [Spec.flowNonNeg, nonNegativity] at h
    · simp only [Spec.demandSatisfaction, Spec.demandCon, List.mem_map, Constraint.mk.injEq] at h
      obtain ⟨p, -, -, -, h⟩ := h
      exact absurd h (const_ne_map_rfTerm Constant hC _ i j r _)
    · simp [Spec.sourceCap] at h
    · simp only [Spec.conservation, Spec.nodeConservation, List.mem_flatMap] at h
      obtain ⟨n', -, h⟩ := h
      split_ifs at h with h1 h2
      · simp at h
      · simp only [List.mem_flatMap] at h
        obtain ⟨p, -, h⟩ := h
        split_ifs at h
        · simp at h
        · simp only [Spec.zeroCon, List.mem_map, Constraint.mk.injEq] at h
          obtain ⟨c, -, -, -, h⟩ := h
          exact absurd h (const_ne_map_rfTerm Constant hC _ i j r _)
      · simp [Spec.attenuationCon] at h
    · simp [Spec.sharedCapacity, Spec.capacityCon] at h
    · simp [Spec.receiverBounds, Spec.boundCon, nonNegativity] at h
    · simp only [Spec.receiverSource, Spec.sourceEqCon, List.mem_map, Constraint.mk.injEq] at h
      obtain ⟨p, -, -, -, h⟩ := h
      exact absurd h (const_ne_map_rfTerm Constant hC _ i j r _)
    · simp only [Spec.receiverSink, Spec.sinkEqCon, List.mem_map, Constraint.mk.injEq] at h
      obtain ⟨p, -, -, -, h⟩ := h
      exact absurd h (const_ne_map_rfTerm Constant hC _ i j r _)
    · simp only [Spec.receiverConservation, List.mem_flatMap] at h
      obtain ⟨p, -, n', -, h⟩ := h
      split_ifs at h with h1
      · simp at h
      · simp only [Spec.continuityCon, List.mem_singleton, Constraint.mk.injEq] at h
        obtain ⟨hl, -, hr'⟩ := h
        have e1 := congrArg List.length hl
        have e2 := congrArg List.length hr'
        simp only [List.length_map] at e1 e2
        rw [not_or] at h1
        constructor
        · intro h0; rw [h0] at e1; exact h1.1 e1.symm
        · intro h0; rw [h0] at e2; exact h1.2 e2.symm
  · rintro ⟨h1, h2⟩
    refine Or.inr (Or.inr (Or.inr (Or.inr (Or.inr (Or.inr (Or.inr (Or.inr (Or.inr ?_))))))))
    simp only [Spec.receiverConservation, List.mem_flatMap]
    refine ⟨(i, j, mess, r), hp, n, hn, ?_⟩
    have h1' : ¬ (graph.EdgesTo n).length = 0 := by simpa [List.length_eq_zero] using h1
    have h2' : ¬ (graph.EdgesFrom n).length = 0 := by simpa [List.length_eq_zero] using h2
    simp only [h1', h2', or_self, if_false, List.mem_singleton]
    rfl

/-! ## Names: decimal rendering and unique parsing -/


theorem digitChar_isDigit (d : Nat) (h : d < 10) : (Nat.digitChar d).isDigit = true := by
  interval_cases d <;> decide

theorem digitChar_val (d : Nat) (h : d < 10) : (Nat.digitChar d).toNat - 48 = d := by
  interval_cases d <;> decide

theorem toDigitsCore_isDigit (fuel n : Nat) (ds : List Char)
    (hds : ∀ c ∈ ds, c.isDigit = true) :
    ∀ c ∈ Nat.toDigitsCore 10 fuel n ds, c.isDigit = true := by
  induction fuel generalizing n ds with
  | zero => simpa [Nat.toDigitsCore] using hds
  | succ fuel ih =>
    have hd : (Nat.digitChar (n % 10)).isDigit = true :=
      digitChar_isDigit _ (Nat.mod_lt _ (by decide))
    have hds2 : ∀ c ∈ Nat.digitChar (n % 10) :: ds, c.isDigit = true := by
      intro c hc
      rcases List.mem_cons.1 hc with rfl | hc
      · exact hd
      · exact hds c hc
    simp only [Nat.toDigitsCore]
    split_ifs
    · exact hds2
    · exact ih _ _ hds2

theorem toDigitsCore_val (fuel n : Nat) (ds : List Char) (h : n < fuel) :
    digitsVal (Nat.toDigitsCore 10 fuel n ds) = n * 10 ^ ds.length + digitsVal ds := by
  induction fuel generalizing n ds with
  | zero => omega
  | succ fuel ih =>
    simp only [Nat.toDigitsCore]
    split_ifs with h0
    · simp only [digitsVal, digitChar_val _ (Nat.mod_lt n (by decide : 10 > 0))]
      have : n % 10 = n := by omega
      rw [this]
    · have hlt : n / 10 < fuel := by omega
      rw [ih _ _ hlt]
      simp only [digitsVal, digitChar_val _ (Nat.mod_lt n (by decide : 10 > 0)),
        List.length_cons, pow_succ]
      rw [show n * 10 ^ ds.length = (10 * (n / 10) + n % 10) * 10 ^ ds.length by
        rw [Nat.div_add_mod]]
      ring

theorem Nat_repr_data (n : Nat) : (Nat.repr n).data = Nat.toDigits 10 n := rfl

theorem Nat_repr_isDigit (n : Nat) : ∀ c ∈ (Nat.repr n).data, c.isDigit = true := by
  rw [Nat_repr_data]
  exact toDigitsCore_isDigit _ _ _ (by simp)

theorem Nat_repr_val (n : Nat) : digitsVal (Nat.repr n).data = n := by
  rw [Nat_repr_data, Nat.toDigits, toDigitsCore_val _ _ _ (Nat.lt_succ_self n)]
  simp [digitsVal]

theorem Nat_repr_injective {a b : Nat} (h : (Nat.repr a).data = (Nat.repr b).data) : a = b := by
  have := congrArg digitsVal h
  rwa [Nat_repr_val, Nat_repr_val] at this

/-- Two strings that each consist of a run of digits followed by a non-digit are equal only
if the runs, the non-digits and the remainders agree. -/
theorem digits_sep_inj (l₁ l₂ : List Char) (x y : Char) (r₁ r₂ : List Char)
    (h₁ : ∀ c ∈ l₁, c.isDigit = true) (h₂ : ∀ c ∈ l₂, c.isDigit = true)
    (hx : x.isDigit = false) (hy : y.isDigit = false)
    (h : l₁ ++ x :: r₁ = l₂ ++ y :: r₂) : l₁ = l₂ ∧ x = y ∧ r₁ = r₂ := by
  induction l₁ generalizing l₂ with
  | nil =>
    cases l₂ with
    | nil => simpa using h
    | cons b l₂ =>
      simp only [List.nil_append, List.cons_append, List.cons.injEq] at h
      have := h₂ b (List.mem_cons_self _ _)
      rw [← h.1, hx] at this
      exact absurd this (by decide)
  | cons a l₁ ih =>
    cases l₂ with
    | nil =>
      simp only [List.nil_append, List.cons_append, List.cons.injEq] at h
      have := h₁ a (List.mem_cons_self _ _)
      rw [h.1, hy] at this
      exact absurd this (by decide)
    | cons b l₂ =>
      simp only [List.cons_append, List.cons.injEq] at h
      obtain ⟨hl, hx', hr⟩ := ih l₂ (fun c hc => h₁ c (List.mem_cons_of_mem _ hc))
        (fun c hc => h₂ c (List.mem_cons_of_mem _ hc)) h.2
      exact ⟨by rw [h.1, hl], hx', hr⟩

/-- A run of digits is not a run of digits followed by a non-digit. -/
theorem digits_ne_digits_sep (l₁ l₂ : List Char) (y : Char) (r₂ : List Char)
    (h₁ : ∀ c ∈ l₁, c.isDigit = true) (hy : y.isDigit = false) :
    l₁ ≠ l₂ ++ y :: r₂ := by
  intro h
  have := h₁ y (by rw [h]; simp)
  rw [hy] at this
  exact absurd this (by decide)

theorem Itoa_data_of_nonneg (n : Int) (h : 0 ≤ n) : (Itoa n).data = (Nat.repr n.toNat).data := by
  obtain ⟨m, rfl⟩ := Int.eq_ofNat_of_zero_le h
  rfl

theorem Itoa_isDigit (n : Int) (h : 0 ≤ n) : ∀ c ∈ (Itoa n).data, c.isDigit = true := by
  rw [Itoa_data_of_nonneg n h]
  exact Nat_repr_isDigit _

theorem Itoa_injective {a b : Int} (ha : 0 ≤ a) (hb : 0 ≤ b)
    (h : (Itoa a).data = (Itoa b).data) : a = b := by
  rw [Itoa_data_of_nonneg a ha, Itoa_data_of_nonneg b hb] at h
  have := Nat_repr_injective h
  omega


theorem Node.tag_not_digit (n : Node) : n.tag.isDigit = false := by
  cases n <;> simp only [Node.tag] <;> decide

theorem Node_Name_data (n : Node) : n.Name.data = n.tag :: (Itoa n.idx).data := by
  cases n <;> rfl

theorem Node.eq_of_tag_idx {a b : Node} (ht : a.tag = b.tag) (hi : a.idx = b.idx) : a = b := by
  rcases a with ⟨⟨i⟩⟩ | ⟨⟨i⟩⟩ | ⟨⟨i⟩⟩ <;> rcases b with ⟨⟨j⟩⟩ | ⟨⟨j⟩⟩ | ⟨⟨j⟩⟩ <;>
    first
    | (simp only [Node.idx] at hi; subst hi; rfl)
    | (simp [Node.tag] at ht)

theorem Edge_Name_data (e : Edge) : e.Name.data = 'e' :: (e.From.Name.data ++ e.To.Name.data) := by
  rcases e with e | e | e | e <;>
    simp [Edge.Name, EdgeSR.Name, EdgeST.Name, EdgeRT.Name, EdgeRR.Name, Edge.From, Edge.To,
      Node.Name, String.data_append]

theorem Edge.eq_of_From_To {a b : Edge} (hf : a.From = b.From) (ht : a.To = b.To) : a = b := by
  rcases a with ⟨f, t⟩ | ⟨f, t⟩ | ⟨f, t⟩ | ⟨f, t⟩ <;>
    rcases b with ⟨f', t'⟩ | ⟨f', t'⟩ | ⟨f', t'⟩ | ⟨f', t'⟩ <;>
    simp_all [Edge.From, Edge.To]

theorem Node_Name_injective {a b : Node} (ha : 0 ≤ a.idx) (hb : 0 ≤ b.idx)
    (h : a.Name.data = b.Name.data) : a = b := by
  rw [Node_Name_data, Node_Name_data, List.cons.injEq] at h
  exact Node.eq_of_tag_idx h.1 (Itoa_injective ha hb h.2)

/-- Splitting `fromName ++ toName ++ rest` : the two node names and the remainder are
determined as soon as the remainder is empty or starts with a non-digit. -/
theorem two_names_sep {a b a' b' : Node} (ha : 0 ≤ a.idx) (hb : 0 ≤ b.idx)
    (ha' : 0 ≤ a'.idx) (hb' : 0 ≤ b'.idx) (x y : Char) (r r' : List Char)
    (hx : x.isDigit = false) (hy : y.isDigit = false)
    (h : a.Name.data ++ (b.Name.data ++ x :: r) = a'.Name.data ++ (b'.Name.data ++ y :: r')) :
    a = a' ∧ b = b' ∧ x = y ∧ r = r' := by
  simp only [Node_Name_data, List.cons_append, List.cons.injEq] at h
  obtain ⟨hta, h⟩ := h
  obtain ⟨h1, htb, h⟩ := digits_sep_inj _ _ _ _ _ _ (Itoa_isDigit _ ha) (Itoa_isDigit _ ha')
    b.tag_not_digit b'.tag_not_digit h
  obtain ⟨h2, hxy, hr⟩ := digits_sep_inj _ _ _ _ _ _ (Itoa_isDigit _ hb) (Itoa_isDigit _ hb')
    hx hy h
  exact ⟨Node.eq_of_tag_idx hta (Itoa_injective ha ha' h1),
    Node.eq_of_tag_idx htb (Itoa_injective hb hb' h2), hxy, hr⟩

theorem two_names_inj {a b a' b' : Node} (ha : 0 ≤ a.idx) (hb : 0 ≤ b.idx)
    (ha' : 0 ≤ a'.idx) (hb' : 0 ≤ b'.idx)
    (h : a.Name.data ++ b.Name.data = a'.Name.data ++ b'.Name.data) :
    a = a' ∧ b = b' := by
  have h' : a.Name.data ++ (b.Name.data ++ '_' :: []) =
      a'.Name.data ++ (b'.Name.data ++ '_' :: []) := by
    rw [← List.append_assoc, ← List.append_assoc, h]
  obtain ⟨h1, h2, -, -⟩ := two_names_sep ha hb ha' hb' '_' '_' [] [] (by decide) (by decide) h'
  exact ⟨h1, h2⟩

theorem Edge_Name_injective {a b : Edge} (haf : 0 ≤ a.From.idx) (hat : 0 ≤ a.To.idx)
    (hbf : 0 ≤ b.From.idx) (hbt : 0 ≤ b.To.idx) (h : a.Name.data = b.Name.data) : a = b := by
  rw [Edge_Name_data, Edge_Name_data, List.cons.injEq] at h
  obtain ⟨h1, h2⟩ := two_names_inj haf hat hbf hbt h.2
  exact Edge.eq_of_From_To h1 h2

/-- C9 (node and edge names never collide). For the nodes `Sender(i)`, `Relayer(i)`,
`Receiver(i)` with non-negative index, equal `Name()` strings imply the same variant and the
same index; for the edges `EdgeSR`, `EdgeST`, `EdgeRT`, `EdgeRR` with non-negative endpoint
indices, equal `Name()` strings imply the same variant and the same `From` and `To`. -/
theorem C9_names_never_collide :
    (∀ a b : Node, 0 ≤ a.idx → 0 ≤ b.idx → a.Name = b.Name → a = b)
    ∧ (∀ a b : Edge, 0 ≤ a.From.idx → 0 ≤ a.To.idx → 0 ≤ b.From.idx → 0 ≤ b.To.idx →
        a.Name = b.Name → a = b) :=
  ⟨fun _ _ ha hb h => Node_Name_injective ha hb (congrArg String.data h),
   fun _ _ haf hat hbf hbt h => Edge_Name_injective haf hat hbf hbt (congrArg String.data h)⟩

theorem C9_names_never_collide_witness :
    Node.relayer ⟨12⟩ = Node.relayer ⟨12⟩ ∧ Edge.rr ⟨⟨1⟩, ⟨12⟩⟩ = Edge.rr ⟨⟨1⟩, ⟨12⟩⟩ :=
  ⟨C9_names_never_collide.1 (Node.relayer ⟨12⟩) (Node.relayer ⟨12⟩)
      (by decide) (by decide) (by decide),
   C9_names_never_collide.2 (Edge.rr ⟨⟨1⟩, ⟨12⟩⟩) (Edge.rr ⟨⟨1⟩, ⟨12⟩⟩)
      (by decide) (by decide) (by decide) (by decide) (by decide)⟩


theorem MessageFlowName_data {E : Type} [Named E] (bi mi : Int) (e : E) :
    (MessageFlowName bi mi e).data =
      'b' :: ((Itoa bi).data ++ 'm' :: ((Itoa mi).data ++ (Named.Name e).data)) := by
  simp [MessageFlowName, String.data_append]

theorem MessageReceiverFlowName_data {N E : Type} [Named N] [Named E] (bi mi : Int)
    (r : N) (e : E) :
    (MessageReceiverFlowName bi mi r e).data =
      'b' :: ((Itoa bi).data ++ 'm' :: ((Itoa mi).data ++
        ((Named.Name e).data ++ '_' :: (Named.Name r).data))) := by
  simp [MessageReceiverFlowName, String.data_append]

theorem Named_Name_Edge_data (e : Edge) :
    (Named.Name e).data = 'e' :: (e.From.Name.data ++ e.To.Name.data) :=
  Edge_Name_data e

theorem MessageFlowName_injective {bi mi bi' mi' : Int} {e e' : Edge}
    (hbi : 0 ≤ bi) (hmi : 0 ≤ mi) (hbi' : 0 ≤ bi') (hmi' : 0 ≤ mi')
    (hf : 0 ≤ e.From.idx) (ht : 0 ≤ e.To.idx) (hf' : 0 ≤ e'.From.idx) (ht' : 0 ≤ e'.To.idx)
    (h : MessageFlowName bi mi e = MessageFlowName bi' mi' e') :
    bi = bi' ∧ mi = mi' ∧ e = e' := by
  have h := congrArg String.data h
  simp only [MessageFlowName_data, Named_Name_Edge_data, List.cons.injEq, true_and] at h
  obtain ⟨h1, -, h⟩ := digits_sep_inj _ _ _ _ _ _ (Itoa_isDigit _ hbi) (Itoa_isDigit _ hbi')
    (by decide) (by decide) h
  obtain ⟨h2, -, h⟩ := digits_sep_inj _ _ _ _ _ _ (Itoa_isDigit _ hmi) (Itoa_isDigit _ hmi')
    (by decide) (by decide) h
  obtain ⟨h3, h4⟩ := two_names_inj hf ht hf' ht' h
  exact ⟨Itoa_injective hbi hbi' h1, Itoa_injective hmi hmi' h2, Edge.eq_of_From_To h3 h4⟩

theorem MessageReceiverFlowName_injective {bi mi bi' mi' : Int} {r r' : Node} {e e' : Edge}
    (hbi : 0 ≤ bi) (hmi : 0 ≤ mi) (hbi' : 0 ≤ bi') (hmi' : 0 ≤ mi')
    (hr : 0 ≤ r.idx) (hr' : 0 ≤ r'.idx)
    (hf : 0 ≤ e.From.idx) (ht : 0 ≤ e.To.idx) (hf' : 0 ≤ e'.From.idx) (ht' : 0 ≤ e'.To.idx)
    (h : MessageReceiverFlowName bi mi r e = MessageReceiverFlowName bi' mi' r' e') :
    bi = bi' ∧ mi = mi' ∧ r = r' ∧ e = e' := by
  have h := congrArg String.data h
  simp only [MessageReceiverFlowName_data, Named_Name_Edge_data, List.cons.injEq, true_and,
    List.cons_append, List.append_assoc] at h
  obtain ⟨h1, -, h⟩ := digits_sep_inj _ _ _ _ _ _ (Itoa_isDigit _ hbi) (Itoa_isDigit _ hbi')
    (by decide) (by decide) h
  obtain ⟨h2, -, h⟩ := digits_sep_inj _ _ _ _ _ _ (Itoa_isDigit _ hmi) (Itoa_isDigit _ hmi')
    (by decide) (by decide) h
  obtain ⟨h3, h4, -, h5⟩ := two_names_sep hf ht hf' ht' '_' '_' _ _ (by decide) (by decide) h
  exact ⟨Itoa_injective hbi hbi' h1, Itoa_injective hmi hmi' h2,
    Node_Name_injective hr hr' h5, Edge.eq_of_From_To h3 h4⟩

theorem MessageFlowName_ne_MessageReceiverFlowName {bi mi bi' mi' : Int} {r' : Node}
    {e e' : Edge} (hbi : 0 ≤ bi) (hmi : 0 ≤ mi) (hbi' : 0 ≤ bi') (hmi' : 0 ≤ mi')
    (hf : 0 ≤ e.From.idx) (ht : 0 ≤ e.To.idx) (hf' : 0 ≤ e'.From.idx) :
    MessageFlowName bi mi e ≠ MessageReceiverFlowName bi' mi' r' e' := by
  intro h
  have h := congrArg String.data h
  simp only [MessageFlowName_data, MessageReceiverFlowName_data, Named_Name_Edge_data,
    List.cons.injEq, true_and, List.cons_append, List.append_assoc] at h
  obtain ⟨-, -, h⟩ := digits_sep_inj _ _ _ _ _ _ (Itoa_isDigit _ hbi) (Itoa_isDigit _ hbi')
    (by decide) (by decide) h
  obtain ⟨-, -, h⟩ := digits_sep_inj _ _ _ _ _ _ (Itoa_isDigit _ hmi) (Itoa_isDigit _ hmi')
    (by decide) (by decide) h
  simp only [Node_Name_data, List.cons_append, List.cons.injEq] at h
  obtain ⟨-, -, h⟩ := digits_sep_inj _ _ _ _ _ _ (Itoa_isDigit _ hf) (Itoa_isDigit _ hf')
    e.To.tag_not_digit e'.To.tag_not_digit h.2
  exact digits_ne_digits_sep _ _ _ _ (Itoa_isDigit _ ht) (by decide) h

theorem Edge_Name_ne_MessageFlowName (e e' : Edge) (bi mi : Int) :
    Named.Name e ≠ MessageFlowName bi mi e' := by
  intro h
  have h := congrArg String.data h
  simp only [MessageFlowName_data, Named_Name_Edge_data, List.cons.injEq] at h
  exact absurd h.1 (by decide)

theorem Edge_Name_ne_MessageReceiverFlowName (e e' : Edge) (bi mi : Int) (r : Node) :
    Named.Name e ≠ MessageReceiverFlowName bi mi r e' := by
  intro h
  have h := congrArg String.data h
  simp only [MessageReceiverFlowName_data, Named_Name_Edge_data, List.cons.injEq] at h
  exact absurd h.1 (by decide)

/-- C8 (variable names are unique per tuple). For non-negative broadcast and message
indices and built-in nodes and edges with non-negative indices: `MessageFlowName` is
injective in (broadcast index, message index, edge); `MessageReceiverFlowName` is injective
in (broadcast index, message index, receiver, edge); and a capacity name (`edge.Name()`), a
message-flow name and a receiver-flow name never coincide with one another. -/
theorem C8_variable_names_unique
    (bi mi bi' mi' : Int) (r r' : Node) (e e' : Edge)
    (hbi : 0 ≤ bi) (hmi : 0 ≤ mi) (hbi' : 0 ≤ bi') (hmi' : 0 ≤ mi')
    (hr : 0 ≤ r.idx) (hr' : 0 ≤ r'.idx)
    (hf : 0 ≤ e.From.idx) (ht : 0 ≤ e.To.idx) (hf' : 0 ≤ e'.From.idx) (ht' : 0 ≤ e'.To.idx) :
    (MessageFlowName bi mi e = MessageFlowName bi' mi' e' → bi = bi' ∧ mi = mi' ∧ e = e')
    ∧ (MessageReceiverFlowName bi mi r e = MessageReceiverFlowName bi' mi' r' e' →
        bi = bi' ∧ mi = mi' ∧ r = r' ∧ e = e')
    ∧ e.Name ≠ MessageFlowName bi' mi' e'
    ∧ e.Name ≠ MessageReceiverFlowName bi' mi' r' e'
    ∧ MessageFlowName bi mi e ≠ MessageReceiverFlowName bi' mi' r' e' :=
  ⟨MessageFlowName_injective hbi hmi hbi' hmi' hf ht hf' ht',
   MessageReceiverFlowName_injective hbi hmi hbi' hmi' hr hr' hf ht hf' ht',
   Edge_Name_ne_MessageFlowName e e' bi' mi',
   Edge_Name_ne_MessageReceiverFlowName e e' bi' mi' r',
   MessageFlowName_ne_MessageReceiverFlowName hbi hmi hbi' hmi' hf ht hf'⟩

theorem C8_variable_names_unique_witness :
    MessageFlowName 1 23 (Edge.rt ⟨⟨4⟩, ⟨5⟩⟩)
      ≠ MessageReceiverFlowName 12 3 (Node.receiver ⟨0⟩) (Edge.rt ⟨⟨4⟩, ⟨5⟩⟩) :=
  (C8_variable_names_unique 1 23 12 3 (Node.receiver ⟨0⟩) (Node.receiver ⟨0⟩)
    (Edge.rt ⟨⟨4⟩, ⟨5⟩⟩) (Edge.rt ⟨⟨4⟩, ⟨5⟩⟩) (by decide) (by decide) (by decide) (by decide)
    (by decide) (by decide) (by decide) (by decide) (by decide) (by decide)).2.2.2.2

/-- Flow names start with the letter b, so the sample marker is none of them. -/
theorem MessageReceiverFlowName_ne_sampleConstant {N E : Type} [Named N] [Named E]
    (i j : Int) (r : N) (e : E) : MessageReceiverFlowName i j r e ≠ sampleConstant := by
  intro h
  have h := congrArg String.data h
  rw [MessageReceiverFlowName_data] at h
  simp [sampleConstant] at h

theorem MessageFlowName_ne_sampleConstant {E : Type} [Named E]
    (i j : Int) (e : E) : MessageFlowName i j e ≠ sampleConstant := by
  intro h
  have h := congrArg String.data h
  rw [MessageFlowName_data] at h
  simp [sampleConstant] at h

set_option maxRecDepth 100000 in
theorem C5_receiver_conservation_witness :
    ({ Left := [⟨"b0m0es0r0_t0", 1⟩, ⟨"b0m0es1r0_t0", 1⟩], Comp := .EQ,
       Right := [⟨"b0m0er0t0_t0", 1⟩, ⟨"b0m0er0t1_t0", 1⟩] } : Constraint)
      ∈ (BasicLP sampleConstant scenarioBroadcasts scenarioGraph.toGraph).Constraints :=
  (C5_receiver_conservation sampleConstant scenarioBroadcasts scenarioGraph.toGraph 0 0
    [scenarioMessage] scenarioMessage (.receiver ⟨0⟩) (.relayer ⟨0⟩)
    MessageReceiverFlowName_ne_sampleConstant rfl rfl (by decide) (by decide)).2
    ⟨by decide, by decide⟩

/-! ## The reference topology -/

theorem wrapInt_eq_self (x : Int) (h : IsInt64 x) : wrapInt x = x := by
  unfold IsInt64 at h
  unfold wrapInt
  omega

theorem edgesSenderToRelayers_eq (sender : Sender) (nRelayer : Int) :
    edgesSenderToRelayers sender nRelayer
      = (List.range nRelayer.toNat).map fun (j : Nat) => Edge.sr ⟨sender, ⟨(j : Int)⟩⟩ := by
  unfold edgesSenderToRelayers
  simp only [Id.run, Id.bind_eq, Id.pure_eq, bind, pure, forIn_yield_append, List.nil_append,
    List.map_eq_flatMap]

theorem edgesRelayerToReceivers_eq (relayer : Relayer) (nReceiver : Int) :
    edgesRelayerToReceivers relayer nReceiver
      = (List.range nReceiver.toNat).map fun (j : Nat) => Edge.rt ⟨relayer, ⟨(j : Int)⟩⟩ := by
  unfold edgesRelayerToReceivers
  simp only [Id.run, Id.bind_eq, Id.pure_eq, bind, pure, forIn_yield_append, List.nil_append,
    List.map_eq_flatMap]

theorem edgesRelayerToRelayers_eq (relayer : Relayer) (nRelayer : Int) :
    edgesRelayerToRelayers relayer nRelayer
      = (List.range (nRelayer - wrapInt (relayer.idx + 1)).toNat).map
          fun (k : Nat) => Edge.rr ⟨relayer, ⟨wrapInt (relayer.idx + 1) + (k : Int)⟩⟩ := by
  unfold edgesRelayerToRelayers
  simp only [Id.run, Id.bind_eq, Id.pure_eq, bind, pure, forIn_yield_append, List.nil_append,
    List.map_eq_flatMap]

theorem RelayerGraph.Edges_eq (rg : RelayerGraph) :
    rg.Edges =
      ((List.range rg.NumSender.toNat).flatMap fun i =>
          edgesSenderToRelayers ⟨(i : Int)⟩ rg.NumRelayer)
      ++ (((List.range rg.NumRelayer.toNat).flatMap fun i =>
          edgesRelayerToReceivers ⟨(i : Int)⟩ rg.NumReceiver)
      ++ ((List.range rg.NumRelayer.toNat).flatMap fun i =>
          edgesRelayerToRelayers ⟨(i : Int)⟩ rg.NumRelayer)) := by
  unfold RelayerGraph.Edges
  simp only [Id.run, Id.bind_eq, Id.pure_eq, bind, pure, forIn_yield_append, List.nil_append,
    List.append_assoc]

theorem RelayerGraph.Nodes_eq (rg : RelayerGraph) :
    rg.Nodes =
      ((List.range rg.NumSender.toNat).map fun (i : Nat) => Node.sender ⟨(i : Int)⟩)
      ++ (((List.range rg.NumRelayer.toNat).map fun (i : Nat) => Node.relayer ⟨(i : Int)⟩)
      ++ ((List.range rg.NumReceiver.toNat).map fun (i : Nat) => Node.receiver ⟨(i : Int)⟩)) := by
  unfold RelayerGraph.Nodes
  simp only [Id.run, Id.bind_eq, Id.pure_eq, bind, pure, forIn_yield_append, List.nil_append,
    List.append_assoc, List.map_eq_flatMap]

theorem RelayerGraph.EdgesFrom_relayer (rg : RelayerGraph) (t : Relayer) :
    rg.EdgesFrom (.relayer t)
      = edgesRelayerToReceivers t rg.NumReceiver ++ edgesRelayerToRelayers t rg.NumRelayer := by
  simp only [RelayerGraph.EdgesFrom, Id.run, Id.bind_eq, Id.pure_eq, bind, pure, List.nil_append]

theorem RelayerGraph.EdgesTo_relayer (rg : RelayerGraph) (t : Relayer) :
    rg.EdgesTo (.relayer t)
      = ((List.range rg.NumSender.toNat).map fun (i : Nat) => Edge.sr ⟨⟨(i : Int)⟩, t⟩)
        ++ ((List.range t.idx.toNat).map fun (i : Nat) => Edge.rr ⟨⟨(i : Int)⟩, t⟩) := by
  simp only [RelayerGraph.EdgesTo, Id.run, Id.bind_eq, Id.pure_eq, bind, pure,
    forIn_yield_append, List.nil_append, List.map_eq_flatMap]

theorem RelayerGraph.EdgesTo_receiver (rg : RelayerGraph) (t : Receiver) :
    rg.EdgesTo (.receiver t)
      = (List.range rg.NumRelayer.toNat).map fun (i : Nat) => Edge.rt ⟨⟨(i : Int)⟩, t⟩ := by
  simp only [RelayerGraph.EdgesTo, Id.run, Id.bind_eq, Id.pure_eq, bind, pure,
    forIn_yield_append, List.nil_append, List.map_eq_flatMap]

/-- Membership in `Edges()`, variant by variant. -/
theorem RelayerGraph.mem_Edges (rg : RelayerGraph) (e : Edge) :
    e ∈ rg.Edges ↔
      (∃ i j : Nat, i < rg.NumSender.toNat ∧ j < rg.NumRelayer.toNat ∧
        e = Edge.sr ⟨⟨(i : Int)⟩, ⟨(j : Int)⟩⟩)
      ∨ (∃ i j : Nat, i < rg.NumRelayer.toNat ∧ j < rg.NumReceiver.toNat ∧
        e = Edge.rt ⟨⟨(i : Int)⟩, ⟨(j : Int)⟩⟩)
      ∨ (∃ i k : Nat, i < rg.NumRelayer.toNat ∧
        k < (rg.NumRelayer - wrapInt ((i : Int) + 1)).toNat ∧
        e = Edge.rr ⟨⟨(i : Int)⟩, ⟨wrapInt ((i : Int) + 1) + (k : Int)⟩⟩) := by
  rw [RelayerGraph.Edges_eq]
  simp only [List.mem_append, List.mem_flatMap, List.mem_range, edgesSenderToRelayers_eq,
    edgesRelayerToReceivers_eq, edgesRelayerToRelayers_eq, List.mem_map]
  constructor
  · rintro (⟨i, hi, j, hj, rfl⟩ | ⟨i, hi, j, hj, rfl⟩ | ⟨i, hi, j, hj, rfl⟩)
    · exact Or.inl ⟨i, j, hi, hj, rfl⟩
    · exact Or.inr (Or.inl ⟨i, j, hi, hj, rfl⟩)
    · exact Or.inr (Or.inr ⟨i, j, hi, hj, rfl⟩)
  · rintro (⟨i, j, hi, hj, rfl⟩ | ⟨i, j, hi, hj, rfl⟩ | ⟨i, j, hi, hj, rfl⟩)
    · exact Or.inl ⟨i, hi, j, hj, rfl⟩
    · exact Or.inr (Or.inl ⟨i, hi, j, hj, rfl⟩)
    · exact Or.inr (Or.inr ⟨i, hi, j, hj, rfl⟩)


theorem RelayerGraph.mem_Nodes (rg : RelayerGraph) (n : Node) :
    n ∈ rg.Nodes ↔
      (∃ i : Nat, i < rg.NumSender.toNat ∧ n = Node.sender ⟨(i : Int)⟩)
      ∨ (∃ i : Nat, i < rg.NumRelayer.toNat ∧ n = Node.relayer ⟨(i : Int)⟩)
      ∨ (∃ i : Nat, i < rg.NumReceiver.toNat ∧ n = Node.receiver ⟨(i : Int)⟩) := by
  rw [RelayerGraph.Nodes_eq]
  simp only [List.mem_append, List.mem_map, List.mem_range, eq_comm]

/-- Below the relayer count, `int(relayer) + 1` does not overflow. -/
theorem wrapInt_succ_of_lt (rg : RelayerGraph) (h : rg.InRange) (i : Nat)
    (hi : i < rg.NumRelayer.toNat) : wrapInt ((i : Int) + 1) = (i : Int) + 1 := by
  apply wrapInt_eq_self
  obtain ⟨-, ⟨h1, h2⟩, -⟩ := h
  unfold IsInt64
  omega

theorem RelayerGraph.Edges_sub_adjacency (rg : RelayerGraph) (h : rg.InRange) (e : Edge)
    (he : e ∈ rg.Edges) : e ∈ rg.EdgesFrom e.From ∧ e ∈ rg.EdgesTo e.To := by
  rw [RelayerGraph.mem_Edges] at he
  rcases he with ⟨i, j, hi, hj, rfl⟩ | ⟨i, j, hi, hj, rfl⟩ | ⟨i, k, hi, hk, rfl⟩
  · constructor
    · simp only [Edge.From, RelayerGraph.EdgesFrom, edgesSenderToRelayers_eq, List.mem_map,
        List.mem_range]
      exact ⟨j, hj, rfl⟩
    · simp only [Edge.To, RelayerGraph.EdgesTo_relayer, List.mem_append, List.mem_map,
        List.mem_range]
      exact Or.inl ⟨i, hi, rfl⟩
  · constructor
    · simp only [Edge.From, RelayerGraph.EdgesFrom_relayer, edgesRelayerToReceivers_eq,
        List.mem_append, List.mem_map, List.mem_range]
      exact Or.inl ⟨j, hj, rfl⟩
    · simp only [Edge.To, RelayerGraph.EdgesTo_receiver, List.mem_map, List.mem_range]
      exact ⟨i, hi, rfl⟩
  · constructor
    · simp only [Edge.From, RelayerGraph.EdgesFrom_relayer, edgesRelayerToRelayers_eq,
        List.mem_append, List.mem_map, List.mem_range]
      exact Or.inr ⟨k, hk, rfl⟩
    · simp only [Edge.To, RelayerGraph.EdgesTo_relayer, List.mem_append, List.mem_map,
        List.mem_range]
      refine Or.inr ⟨i, ?_, rfl⟩
      rw [wrapInt_succ_of_lt rg h i hi]
      omega

theorem RelayerGraph.EdgesFrom_sub (rg : RelayerGraph) (n : Node) (hn : n ∈ rg.Nodes)
    (e : Edge) (he : e ∈ rg.EdgesFrom n) : e.From = n ∧ e ∈ rg.Edges := by
  rw [RelayerGraph.mem_Nodes] at hn
  rw [RelayerGraph.mem_Edges]
  rcases hn with ⟨i, hi, rfl⟩ | ⟨i, hi, rfl⟩ | ⟨i, hi, rfl⟩
  · simp only [RelayerGraph.EdgesFrom, edgesSenderToRelayers_eq, List.mem_map,
      List.mem_range] at he
    obtain ⟨j, hj, rfl⟩ := he
    exact ⟨rfl, Or.inl ⟨i, j, hi, hj, rfl⟩⟩
  · simp only [RelayerGraph.EdgesFrom_relayer, edgesRelayerToReceivers_eq,
      edgesRelayerToRelayers_eq, List.mem_append, List.mem_map, List.mem_range] at he
    rcases he with ⟨j, hj, rfl⟩ | ⟨k, hk, rfl⟩
    · exact ⟨rfl, Or.inr (Or.inl ⟨i, j, hi, hj, rfl⟩)⟩
    · exact ⟨rfl, Or.inr (Or.inr ⟨i, k, hi, hk, rfl⟩)⟩
  · simp [RelayerGraph.EdgesFrom] at he

theorem RelayerGraph.EdgesTo_sub (rg : RelayerGraph) (h : rg.InRange) (n : Node)
    (hn : n ∈ rg.Nodes) (e : Edge) (he : e ∈ rg.EdgesTo n) : e.To = n ∧ e ∈ rg.Edges := by
  rw [RelayerGraph.mem_Nodes] at hn
  rw [RelayerGraph.mem_Edges]
  rcases hn with ⟨i, hi, rfl⟩ | ⟨i, hi, rfl⟩ | ⟨i, hi, rfl⟩
  · simp [RelayerGraph.EdgesTo] at he
  · simp only [RelayerGraph.EdgesTo_relayer, List.mem_append, List.mem_map,
      List.mem_range] at he
    rcases he with ⟨j, hj, rfl⟩ | ⟨j, hj, rfl⟩
    · exact ⟨rfl, Or.inl ⟨j, i, hj, hi, rfl⟩⟩
    · have hj' : j < i := by simpa using hj
      have hjR : j < rg.NumRelayer.toNat := by omega
      refine ⟨rfl, Or.inr (Or.inr ⟨j, i - j - 1, hjR, ?_, ?_⟩)⟩
      · rw [wrapInt_succ_of_lt rg h j hjR]
        omega
      · rw [wrapInt_succ_of_lt rg h j hjR]
        have : ((j : Int) + 1 + ((i - j - 1 : Nat) : Int)) = (i : Int) := by omega
        rw [this]
  · simp only [RelayerGraph.EdgesTo_receiver, List.mem_map, List.mem_range] at he
    obtain ⟨j, hj, rfl⟩ := he
    exact ⟨rfl, Or.inr (Or.inl ⟨j, i, hj, hi, rfl⟩)⟩

/-- C10 (adjacency of the reference topology is consistent with its edge set). For every
`RelayerGraph` (whose fields are Go ints): every edge `e` of `Edges()` occurs in
`EdgesFrom(e.From)` and in `EdgesTo(e.To)`; and for every node `n` of `Nodes()`, every edge
returned by `EdgesFrom(n)` starts at `n` and occurs in `Edges()`, and every edge returned by
`EdgesTo(n)` ends at `n` and occurs in `Edges()`. -/
theorem C10_adjacency_consistent (rg : RelayerGraph) (h : rg.InRange) :
    (∀ e ∈ rg.Edges, e ∈ rg.EdgesFrom e.From ∧ e ∈ rg.EdgesTo e.To)
    ∧ (∀ n ∈ rg.Nodes,
        (∀ e ∈ rg.EdgesFrom n, e.From = n ∧ e ∈ rg.Edges)
        ∧ (∀ e ∈ rg.EdgesTo n, e.To = n ∧ e ∈ rg.Edges)) :=
  ⟨fun e he => RelayerGraph.Edges_sub_adjacency rg h e he,
   fun n hn => ⟨fun e he => RelayerGraph.EdgesFrom_sub rg n hn e he,
     fun e he => RelayerGraph.EdgesTo_sub rg h n hn e he⟩⟩

theorem C10_adjacency_consistent_witness :
    Edge.rr ⟨⟨0⟩, ⟨2⟩⟩ ∈ (RelayerGraph.mk 2 3 2 (1 / 100)).EdgesFrom (Node.relayer ⟨0⟩)
    ∧ Edge.rr ⟨⟨0⟩, ⟨2⟩⟩ ∈ (RelayerGraph.mk 2 3 2 (1 / 100)).EdgesTo (Node.relayer ⟨2⟩) :=
  (C10_adjacency_consistent (RelayerGraph.mk 2 3 2 (1 / 100)) (by decide)).1
    (Edge.rr ⟨⟨0⟩, ⟨2⟩⟩) (by decide)

/-! ## Messages and (message, receiver) pairs -/

theorem Spec.messages_of_pairs {N : Type} (bs : List (Broadcast N)) (i j : Nat)
    (m : Message N) (r : N) (h : (i, j, m, r) ∈ Spec.pairs bs) :
    (i, j, m) ∈ Spec.messages bs :=
  (Spec.mem_messages _ _ _ _).2 ((Spec.mem_pairs _ _ _ _ _).1 h).1

theorem Spec.pairs_of_messages {N : Type} (bs : List (Broadcast N)) (i j : Nat)
    (m : Message N) (r : N) (h : (i, j, m) ∈ Spec.messages bs) (hr : r ∈ m.Receivers) :
    (i, j, m, r) ∈ Spec.pairs bs :=
  (Spec.mem_pairs _ _ _ _ _).2 ⟨(Spec.mem_messages _ _ _ _).1 h, hr⟩

/-! ## Completeness of non-negativity -/

/-- Every model variable has its non-negativity constraint in the list. -/
theorem nonNegativity_mem_of_IsModelVar {N E : Type} [Named N] [Named E] (C : String)
    (bs : List (Broadcast N)) (g : Graph N E) (name : String)
    (h : Spec.IsModelVar bs g name) : nonNegativity C name ∈ (BasicLP C bs g).Constraints := by
  rw [mem_BasicLP_Constraints]
  rcases h with ⟨e, he, rfl⟩ | ⟨i, j, m, hm, e, he, rfl⟩ | ⟨i, j, m, r, hp, e, he, rfl⟩
  · exact Or.inl (List.mem_map.2 ⟨e, he, rfl⟩)
  · refine Or.inr (Or.inl ?_)
    simp only [Spec.flowNonNeg, List.mem_flatMap, List.mem_map]
    exact ⟨(i, j, m), hm, e, he, rfl⟩
  · refine Or.inr (Or.inr (Or.inr (Or.inr (Or.inr (Or.inr (Or.inl ?_))))))
    simp only [Spec.receiverBounds, List.mem_flatMap]
    refine ⟨(i, j, m), Spec.messages_of_pairs bs i j m r hp, e, he, r,
      ((Spec.mem_pairs _ _ _ _ _).1 hp).2, ?_⟩
    simp

/-- Every term of every constraint is a `Constant` term or a term of a model variable. -/
theorem term_of_Constraints {N E : Type} [Named N] [Named E] (C : String)
    (bs : List (Broadcast N)) (g : Graph N E)
    (hFrom : ∀ n ∈ g.Nodes, ∀ e ∈ g.EdgesFrom n, e ∈ g.Edges)
    (hTo : ∀ n ∈ g.Nodes, ∀ e ∈ g.EdgesTo n, e ∈ g.Edges)
    (hFromS : ∀ (i j : Nat) (m : Message N), (i, j, m) ∈ Spec.messages bs →
      ∀ e ∈ g.EdgesFrom m.Sender, e ∈ g.Edges)
    (hToR : ∀ (i j : Nat) (m : Message N), (i, j, m) ∈ Spec.messages bs →
      ∀ r ∈ m.Receivers, ∀ e ∈ g.EdgesTo r, e ∈ g.Edges)
    (c : Constraint) (hc : c ∈ (BasicLP C bs g).Constraints)
    (t : Term) (ht : t ∈ c.Left ∨ t ∈ c.Right) :
    t.Var = C ∨ Spec.IsModelVar bs g t.Var := by
  rw [mem_BasicLP_Constraints] at hc
  rcases hc with h | h | h | h | h | h | h | h | h | h
  · simp only [Spec.capacityNonNeg, List.mem_map] at h
    obtain ⟨e, he, rfl⟩ := h
    simp only [nonNegativity, List.mem_singleton] at ht
    rcases ht with rfl | rfl
    · exact Or.inr (Or.inl ⟨e, he, rfl⟩)
    · exact Or.inl rfl
  · simp only [Spec.flowNonNeg, List.mem_flatMap, List.mem_map] at h
    obtain ⟨⟨i, j, m⟩, hm, e, he, rfl⟩ := h
    simp only [nonNegativity, List.mem_singleton] at ht
    rcases ht with rfl | rfl
    · exact Or.inr (Or.inr (Or.inl ⟨i, j, m, hm, e, he, rfl⟩))
    · exact Or.inl rfl
  · simp only [Spec.demandSatisfaction, List.mem_map] at h
    obtain ⟨⟨i, j, m, r⟩, hp, rfl⟩ := h
    simp only [Spec.demandCon, List.mem_map, List.mem_singleton] at ht
    rcases ht with ⟨e, he, rfl⟩ | rfl
    · have hm := Spec.messages_of_pairs bs i j m r hp
      exact Or.inr (Or.inr (Or.inl ⟨i, j, m, hm, e,
        hToR i j m hm r ((Spec.mem_pairs _ _ _ _ _).1 hp).2 e he, rfl⟩))
    · exact Or.inl rfl
  · simp only [Spec.sourceCap, List.mem_flatMap, List.mem_map] at h
    obtain ⟨⟨i, j, m⟩, hm, e, he, rfl⟩ := h
    simp only [List.mem_singleton] at ht
    rcases ht with rfl | rfl
    · exact Or.inr (Or.inr (Or.inl ⟨i, j, m, hm, e, hFromS i j m hm e he, rfl⟩))
    · exact Or.inl rfl
  · simp only [Spec.conservation, Spec.nodeConservation, List.mem_flatMap] at h
    obtain ⟨n, hn, h⟩ := h
    split_ifs at h with h1 h2
    · simp at h
    · simp only [List.mem_flatMap] at h
      obtain ⟨⟨i, j, m⟩, hm, h⟩ := h
      split_ifs at h
      · simp at h
      · simp only [List.mem_map] at h
        obtain ⟨e, he, rfl⟩ := h
        simp only [Spec.zeroCon, List.mem_singleton] at ht
        rcases ht with rfl | rfl
        · exact Or.inr (Or.inr (Or.inl ⟨i, j, m, hm, e, hFrom n hn e he, rfl⟩))
        · exact Or.inl rfl
    · simp only [List.mem_flatMap, List.mem_map] at h
      obtain ⟨⟨i, j, m⟩, hm, e, he, rfl⟩ := h
      simp only [Spec.attenuationCon, List.mem_singleton, List.mem_map] at ht
      rcases ht with rfl | ⟨p, hp, rfl⟩
      · exact Or.inr (Or.inr (Or.inl ⟨i, j, m, hm, e, hFrom n hn e he, rfl⟩))
      · exact Or.inr (Or.inr (Or.inl ⟨i, j, m, hm, p, hTo n hn p hp, rfl⟩))
  · simp only [Spec.sharedCapacity, List.mem_flatMap, List.mem_map] at h
    obtain ⟨e, he, ⟨i, b⟩, hib, rfl⟩ := h
    simp only [Spec.capacityCon, List.mem_map, List.mem_range, List.mem_singleton] at ht
    rcases ht with ⟨j, hj, rfl⟩ | rfl
    · refine Or.inr (Or.inr (Or.inl ⟨i, j, b[j], ?_, e, he, rfl⟩))
      exact (Spec.mem_messages _ _ _ _).2
        ⟨b, List.mk_mem_enum_iff_getElem?.1 hib, List.getElem?_eq_getElem hj⟩
    · exact Or.inr (Or.inl ⟨e, he, rfl⟩)
  · simp only [Spec.receiverBounds, List.mem_flatMap, List.mem_cons, List.mem_singleton,
      List.not_mem_nil, or_false] at h
    obtain ⟨⟨i, j, m⟩, hm, e, he, r, hr, h⟩ := h
    have hp := Spec.pairs_of_messages bs i j m r hm hr
    rcases h with rfl | rfl
    · simp only [Spec.boundCon, List.mem_singleton] at ht
      rcases ht with rfl | rfl
      · exact Or.inr (Or.inr (Or.inr ⟨i, j, m, r, hp, e, he, rfl⟩))
      · exact Or.inr (Or.inr (Or.inl ⟨i, j, m, hm, e, he, rfl⟩))
    · simp only [nonNegativity, List.mem_singleton] at ht
      rcases ht with rfl | rfl
      · exact Or.inr (Or.inr (Or.inr ⟨i, j, m, r, hp, e, he, rfl⟩))
      · exact Or.inl rfl
  · simp only [Spec.receiverSource, List.mem_map] at h
    obtain ⟨⟨i, j, m, r⟩, hp, rfl⟩ := h
    simp only [Spec.sourceEqCon, List.mem_map, List.mem_singleton] at ht
    rcases ht with ⟨e, he, rfl⟩ | rfl
    · exact Or.inr (Or.inr (Or.inr ⟨i, j, m, r, hp, e,
        hFromS i j m (Spec.messages_of_pairs bs i j m r hp) e he, rfl⟩))
    · exact Or.inl rfl
  · simp only [Spec.receiverSink, List.mem_map] at h
    obtain ⟨⟨i, j, m, r⟩, hp, rfl⟩ := h
    simp only [Spec.sinkEqCon, List.mem_map, List.mem_singleton] at ht
    rcases ht with ⟨e, he, rfl⟩ | rfl
    · exact Or.inr (Or.inr (Or.inr ⟨i, j, m, r, hp, e,
        hToR i j m (Spec.messages_of_pairs bs i j m r hp) r
          ((Spec.mem_pairs _ _ _ _ _).1 hp).2 e he, rfl⟩))
    · exact Or.inl rfl
  · simp only [Spec.receiverConservation, List.mem_flatMap] at h
    obtain ⟨⟨i, j, m, r⟩, hp, n, hn, h⟩ := h
    split_ifs at h
    · simp at h
    · simp only [List.mem_singleton] at h
      subst h
      simp only [Spec.continuityCon, List.mem_map] at ht
      rcases ht with ⟨e, he, rfl⟩ | ⟨e, he, rfl⟩
      · exact Or.inr (Or.inr (Or.inr ⟨i, j, m, r, hp, e, hTo n hn e he, rfl⟩))
      · exact Or.inr (Or.inr (Or.inr ⟨i, j, m, r, hp, e, hFrom n hn e he, rfl⟩))

theorem Spec.mem_of_mem_messages {N : Type} (bs : List (Broadcast N)) (i j : Nat)
    (m : Message N) (h : (i, j, m) ∈ Spec.messages bs) : ∃ b ∈ bs, m ∈ b := by
  obtain ⟨b, hb, hm⟩ := (Spec.mem_messages _ _ _ _).1 h
  exact ⟨b, List.getElem?_mem hb, List.getElem?_mem hm⟩

/-- C7 (completeness of non-negativity). For every graph whose `EdgesFrom` and `EdgesTo`
return only edges of `Edges()` at every node the builder queries (the nodes of
`graph.Nodes()`, the senders and the receivers of the messages) and every list of
broadcasts: every variable name other than the `Constant` marker that occurs in a term of
the objective or of a constraint returned by `BasicLP` also occurs as the sole left term,
with coefficient 1, of a constraint `name >= 0` of the returned list. -/
theorem C7_nonnegativity_complete {N E : Type} [Named N] [Named E] (Constant : String)
    (broadcasts : List (Broadcast N)) (graph : Graph N E)
    (hNodes : ∀ n ∈ graph.Nodes, (∀ e ∈ graph.EdgesFrom n, e ∈ graph.Edges)
      ∧ (∀ e ∈ graph.EdgesTo n, e ∈ graph.Edges))
    (hMess : ∀ bcast ∈ broadcasts, ∀ mess ∈ bcast,
      (∀ e ∈ graph.EdgesFrom mess.Sender, e ∈ graph.Edges)
      ∧ (∀ r ∈ mess.Receivers, ∀ e ∈ graph.EdgesTo r, e ∈ graph.Edges))
    (name : String) (hname : name ≠ Constant)
    (hocc : (∃ t ∈ (BasicLP Constant broadcasts graph).Objective.Terms, t.Var = name)
      ∨ (∃ c ∈ (BasicLP Constant broadcasts graph).Constraints,
          ∃ t, (t ∈ c.Left ∨ t ∈ c.Right) ∧ t.Var = name)) :
    ({ Left := [⟨name, 1⟩], Comp := .GE, Right := [⟨Constant, 0⟩] } : Constraint)
      ∈ (BasicLP Constant broadcasts graph).Constraints := by
  apply nonNegativity_mem_of_IsModelVar
  rcases hocc with ⟨t, ht, rfl⟩ | ⟨c, hc, t, ht, rfl⟩
  · rw [BasicLP_Objective] at ht
    simp only [makeObjective, List.mem_map] at ht
    obtain ⟨e, he, rfl⟩ := ht
    exact Or.inl ⟨e, he, rfl⟩
  · have hS : ∀ (i j : Nat) (m : Message N), (i, j, m) ∈ Spec.messages broadcasts →
        ∀ e ∈ graph.EdgesFrom m.Sender, e ∈ graph.Edges := by
      intro i j m hm
      obtain ⟨b, hb, hmb⟩ := Spec.mem_of_mem_messages broadcasts i j m hm
      exact (hMess b hb m hmb).1
    have hR : ∀ (i j : Nat) (m : Message N), (i, j, m) ∈ Spec.messages broadcasts →
        ∀ r ∈ m.Receivers, ∀ e ∈ graph.EdgesTo r, e ∈ graph.Edges := by
      intro i j m hm
      obtain ⟨b, hb, hmb⟩ := Spec.mem_of_mem_messages broadcasts i j m hm
      exact (hMess b hb m hmb).2
    rcases term_of_Constraints Constant broadcasts graph (fun n hn => (hNodes n hn).1)
      (fun n hn => (hNodes n hn).2) hS hR c hc t ht with h | h
    · exact absurd h hname
    · exact h

set_option maxRecDepth 100000 in
theorem C7_nonnegativity_complete_witness :
    ({ Left := [⟨"b0m0es1r0_t1", 1⟩], Comp := .GE, Right := [⟨sampleConstant, 0⟩] }
      : Constraint)
      ∈ (BasicLP sampleConstant scenarioBroadcasts scenarioGraph.toGraph).Constraints :=
  C7_nonnegativity_complete sampleConstant scenarioBroadcasts scenarioGraph.toGraph
    (by decide) (by decide) "b0m0es1r0_t1" (by decide)
    (Or.inr ⟨{ Left := [⟨"b0m0es0r0_t1", 1⟩, ⟨"b0m0es1r0_t1", 1⟩], Comp := .EQ,
               Right := [⟨"b0m0er0t0_t1", 1⟩, ⟨"b0m0er0t1_t1", 1⟩] },
      by decide, ⟨"b0m0es1r0_t1", 1⟩, by decide, rfl⟩)

/-! ## Reading the constraints under an assignment -/

theorem termsValue_const (C : String) (a : String → ℚ) (w : ℚ) :
    termsValue C a [⟨C, w⟩] = w := by
  simp [termsValue, Term.value]

theorem termsValue_single (C : String) (a : String → ℚ) (name : String) (h : name ≠ C) :
    termsValue C a [⟨name, 1⟩] = a name := by
  simp [termsValue, Term.value, h]

theorem termsValue_map {α : Type} (C : String) (a : String → ℚ) (f : α → String)
    (l : List α) (h : ∀ x, f x ≠ C) :
    termsValue C a (l.map fun x => ⟨f x, 1⟩) = (l.map fun x => a (f x)).sum := by
  induction l with
  | nil => simp [termsValue]
  | cons x l ih =>
    simp only [termsValue, List.map_cons, List.sum_cons, Term.value, h x, if_false, one_mul]
      at ih ⊢
    rw [ih]

theorem Holds_nonNegativity (C : String) (a : String → ℚ) (name : String) (h : name ≠ C) :
    (nonNegativity C name).Holds C a ↔ a name ≥ 0 := by
  simp only [Constraint.Holds, nonNegativity, termsValue_const, termsValue_single C a name h]

/-- A feasible point of the linear program satisfies every constraint the builder emits, as
long as the marker `Constant` is not a variable name. -/
theorem satisfied_of_feasible {N E : Type} [Named N] [Named E] (C : String)
    (a : String → ℚ) (bs : List (Broadcast N)) (g : Graph N E)
    (hC : Spec.Reserved N E C) (hf : Spec.Feasible a bs g) :
    LP.Satisfied C a (BasicLP C bs g) := by
  obtain ⟨hE, hM, hR⟩ := hC
  obtain ⟨f1, f2, f3, f4, f5, f6, f7, f8, f9, f10⟩ := hf
  intro c hc
  rw [mem_BasicLP_Constraints] at hc
  rcases hc with h | h | h | h | h | h | h | h | h | h
  · simp only [Spec.capacityNonNeg, List.mem_map] at h
    obtain ⟨e, he, rfl⟩ := h
    exact (Holds_nonNegativity C a _ (hE e)).2 (f1 e he)
  · simp only [Spec.flowNonNeg, List.mem_flatMap, List.mem_map] at h
    obtain ⟨p, hp, e, he, rfl⟩ := h
    exact (Holds_nonNegativity C a _ (hM _ _ e)).2 (f2 p hp e he)
  · simp only [Spec.demandSatisfaction, List.mem_map] at h
    obtain ⟨p, hp, rfl⟩ := h
    simp only [Constraint.Holds, Spec.demandCon, Spec.mfTerm, termsValue_const,
      termsValue_map C a _ _ (fun e => hM _ _ e)]
    exact f3 p hp
  · simp only [Spec.sourceCap, List.mem_flatMap, List.mem_map] at h
    obtain ⟨p, hp, e, he, rfl⟩ := h
    simp only [Constraint.Holds, Spec.mfTerm, termsValue_const,
      termsValue_single C a _ (hM _ _ e)]
    exact f4 p hp e he
  · simp only [Spec.conservation, Spec.nodeConservation, List.mem_flatMap] at h
    obtain ⟨n, hn, h⟩ := h
    split_ifs at h with h1 h2
    · simp at h
    · simp only [List.mem_flatMap] at h
      obtain ⟨p, hp, h⟩ := h
      split_ifs at h with h3
      · simp at h
      · simp only [List.mem_map] at h
        obtain ⟨e, he, rfl⟩ := h
        have := f5 n hn p hp e he
        simp only [h2, if_true, h3, false_or] at this
        simp only [Constraint.Holds, Spec.zeroCon, Spec.mfTerm, termsValue_const,
          termsValue_single C a _ (hM _ _ e)]
        exact this
    · simp only [List.mem_flatMap, List.mem_map] at h
      obtain ⟨p, hp, e, he, rfl⟩ := h
      have := f5 n hn p hp e he
      simp only [h2, if_false] at this
      simp only [Constraint.Holds, Spec.attenuationCon, Spec.mfTerm,
        termsValue_single C a _ (hM _ _ e), termsValue_map C a _ _ (fun e => hM _ _ e)]
      exact this
  · simp only [Spec.sharedCapacity, List.mem_flatMap, List.mem_map] at h
    obtain ⟨e, he, ib, hib, rfl⟩ := h
    simp only [Constraint.Holds, Spec.capacityCon, Spec.mfTerm,
      termsValue_single C a _ (hE e),
      termsValue_map C a (fun (j : Nat) => MessageFlowName ib.1 j e) _ (fun j => hM _ _ e)]
    exact f6 e he ib hib
  · simp only [Spec.receiverBounds, List.mem_flatMap, List.mem_cons, List.mem_singleton,
      List.not_mem_nil, or_false] at h
    obtain ⟨⟨i, j, m⟩, hp, e, he, r, hr, h⟩ := h
    have := f7 (i, j, m, r) (Spec.pairs_of_messages bs i j m r hp hr) e he
    rcases h with rfl | rfl
    · simp only [Constraint.Holds, Spec.boundCon, Spec.mfTerm, Spec.rfTerm,
        termsValue_single C a _ (hM _ _ e), termsValue_single C a _ (hR _ _ r e)]
      exact this.1
    · exact (Holds_nonNegativity C a _ (hR _ _ r e)).2 this.2
  · simp only [Spec.receiverSource, List.mem_map] at h
    obtain ⟨p, hp, rfl⟩ := h
    simp only [Constraint.Holds, Spec.sourceEqCon, Spec.rfTerm, termsValue_const,
      termsValue_map C a _ _ (fun e => hR _ _ _ e)]
    exact f8 p hp
  · simp only [Spec.receiverSink, List.mem_map] at h
    obtain ⟨p, hp, rfl⟩ := h
    simp only [Constraint.Holds, Spec.sinkEqCon, Spec.rfTerm, termsValue_const,
      termsValue_map C a _ _ (fun e => hR _ _ _ e)]
    exact f9 p hp
  · simp only [Spec.receiverConservation, List.mem_flatMap] at h
    obtain ⟨p, hp, n, hn, h⟩ := h
    split_ifs at h with h1
    · simp at h
    · simp only [List.mem_singleton] at h
      subst h
      rw [not_or] at h1
      have := f10 p hp n hn
      simp only [h1.1, h1.2, false_or] at this
      simp only [Constraint.Holds, Spec.continuityCon, Spec.rfTerm,
        termsValue_map C a _ _ (fun e => hR _ _ _ e)]
      exact this

set_option maxRecDepth 100000 in
theorem scenarioFlow_feasible :
    Spec.Feasible scenarioFlow scenarioBroadcasts scenarioGraph.toGraph := by
  decide!

/-- The feasibility conditions do not look at the edge costs. -/
theorem Feasible_of_fields {N E : Type} [Named N] [Named E] (a : String → ℚ)
    (bs : List (Broadcast N)) (g g' : Graph N E) (hN : g.Nodes = g'.Nodes)
    (hE : g.Edges = g'.Edges) (hT : g.EdgesTo = g'.EdgesTo) (hF : g.EdgesFrom = g'.EdgesFrom)
    (h : Spec.Feasible a bs g') : Spec.Feasible a bs g := by
  unfold Spec.Feasible at h ⊢
  rw [hN, hE, hT, hF]
  exact h

theorem scenarioFlow_feasible_eps (eps : ℚ) :
    Spec.Feasible scenarioFlow scenarioBroadcasts (RelayerGraph.mk 2 1 2 eps).toGraph :=
  Feasible_of_fields _ _ _ scenarioGraph.toGraph rfl rfl rfl rfl scenarioFlow_feasible


theorem Reserved_sampleConstant : Spec.Reserved Node Edge sampleConstant := by
  refine ⟨?_, fun i j e => MessageFlowName_ne_sampleConstant i j e,
    fun i j r e => MessageReceiverFlowName_ne_sampleConstant i j r e⟩
  intro e h
  have h := congrArg String.data h
  rw [Named_Name_Edge_data] at h
  simp [sampleConstant] at h

/-- C6 (trunk sharing, read semantically). With the marker `Constant` not a variable name:
in every assignment satisfying all constraints of `BasicLP`, for every message, every
receiver `r` of it and every edge `e` of `graph.Edges()`, receiver-flow(r, e) is at most
message-flow(e); and sharing is possible: for the `RelayerGraph` with 2 senders, 1 relayer
and 2 receivers (any epsilon) and the single message sender 0 -> {receiver 0, receiver 1} of
weight 5, some assignment satisfies all constraints while the message flow on the edge
s0 -> r0 is strictly less than the sum of the two receivers' flows on that edge, each
receiver's flow summing to exactly 5 over the edges leaving the sender and over the edges
entering that receiver. -/
theorem C6_trunk_sharing (Constant : String) (hC : Spec.Reserved Node Edge Constant) :
    (∀ (N E : Type) [Named N] [Named E] (broadcasts : List (Broadcast N)) (graph : Graph N E)
        (a : String → ℚ), Spec.Reserved N E Constant →
        LP.Satisfied Constant a (BasicLP Constant broadcasts graph) →
        ∀ (i j : Nat) (bcast : Broadcast N) (mess : Message N) (r : N) (e : E),
          broadcasts[i]? = some bcast → bcast[j]? = some mess → r ∈ mess.Receivers →
          e ∈ graph.Edges →
          a (MessageReceiverFlowName i j r e) ≤ a (MessageFlowName i j e))
    ∧ (∀ eps : ℚ, ∃ a : String → ℚ,
        LP.Satisfied Constant a
          (BasicLP Constant scenarioBroadcasts (RelayerGraph.mk 2 1 2 eps).toGraph)
        ∧ a (MessageFlowName 0 0 (Edge.sr ⟨⟨0⟩, ⟨0⟩⟩))
            < a (MessageReceiverFlowName 0 0 (Node.receiver ⟨0⟩) (Edge.sr ⟨⟨0⟩, ⟨0⟩⟩))
              + a (MessageReceiverFlowName 0 0 (Node.receiver ⟨1⟩) (Edge.sr ⟨⟨0⟩, ⟨0⟩⟩))
        ∧ ∀ r ∈ scenarioMessage.Receivers,
            (((RelayerGraph.mk 2 1 2 eps).EdgesFrom scenarioMessage.Sender).map
              fun e => a (MessageReceiverFlowName 0 0 r e)).sum = 5
            ∧ (((RelayerGraph.mk 2 1 2 eps).EdgesTo r).map
              fun e => a (MessageReceiverFlowName 0 0 r e)).sum = 5) := by
  constructor
  · intro N E _ _ broadcasts graph a hR hsat i j bcast mess r e hi hj hr he
    have hmem : Spec.boundCon i j r e ∈ (BasicLP Constant broadcasts graph).Constraints := by
      rw [mem_BasicLP_Constraints]
      refine Or.inr (Or.inr (Or.inr (Or.inr (Or.inr (Or.inr (Or.inl ?_))))))
      simp only [Spec.receiverBounds, List.mem_flatMap]
      exact ⟨(i, j, mess), (Spec.mem_messages _ _ _ _).2 ⟨bcast, hi, hj⟩, e, he, r, hr,
        List.mem_cons_self _ _⟩
    have h := hsat _ hmem
    simpa only [Constraint.Holds, Spec.boundCon, Spec.mfTerm, Spec.rfTerm,
      termsValue_single Constant a _ (hR.2.1 _ _ e),
      termsValue_single Constant a _ (hR.2.2 _ _ r e)] using h
  · intro eps
    have hf := scenarioFlow_feasible_eps eps
    refine ⟨scenarioFlow, satisfied_of_feasible Constant scenarioFlow _ _ hC hf, by decide!, ?_⟩
    intro r hr
    have hp : (0, 0, scenarioMessage, r) ∈ Spec.pairs scenarioBroadcasts :=
      (Spec.mem_pairs _ _ _ _ _).2 ⟨⟨[scenarioMessage], rfl, rfl⟩, hr⟩
    obtain ⟨-, -, -, -, -, -, -, f8, f9, -⟩ := hf
    have h8 := f8 _ hp
    have h9 := f9 _ hp
    have hw : scenarioMessage.Weight = 5 := rfl
    simp only [Nat.cast_zero, hw, RelayerGraph.toGraph] at h8 h9
    exact ⟨h8, h9⟩

theorem C6_trunk_sharing_witness :
    ∃ a : String → ℚ,
      LP.Satisfied sampleConstant a
        (BasicLP sampleConstant scenarioBroadcasts (RelayerGraph.mk 2 1 2 (1 / 100)).toGraph)
      ∧ a (MessageFlowName 0 0 (Edge.sr ⟨⟨0⟩, ⟨0⟩⟩))
          < a (MessageReceiverFlowName 0 0 (Node.receiver ⟨0⟩) (Edge.sr ⟨⟨0⟩, ⟨0⟩⟩))
            + a (MessageReceiverFlowName 0 0 (Node.receiver ⟨1⟩) (Edge.sr ⟨⟨0⟩, ⟨0⟩⟩)) := by
  obtain ⟨a, h1, h2, -⟩ := (C6_trunk_sharing sampleConstant Reserved_sampleConstant).2 (1 / 100)
  exact ⟨a, h1, h2⟩

/-! ## The edge set of the reference topology -/

theorem sum_range_countdown (n : Nat) :
    2 * ((List.range n).map fun i => n - (i + 1)).sum = n * (n - 1) := by
  induction n with
  | zero => simp
  | succ n ih =>
    rw [List.range_succ_eq_map, List.map_cons, List.map_map, List.sum_cons]
    have : ((fun i => n + 1 - (i + 1)) ∘ Nat.succ) = fun i => n - (i + 1) := by
      funext i; simp only [Function.comp, Nat.succ_eq_add_one]; omega
    rw [this, Nat.mul_add, ih]
    cases n with
    | zero => simp
    | succ m => simp only [Nat.add_sub_cancel]; ring

theorem edgesRelayerToRelayers_length (rg : RelayerGraph) (h : rg.InRange) (i : Nat)
    (hi : i < rg.NumRelayer.toNat) :
    (edgesRelayerToRelayers ⟨(i : Int)⟩ rg.NumRelayer).length = rg.NumRelayer.toNat - (i + 1) := by
  rw [edgesRelayerToRelayers_eq, List.length_map, List.length_range]
  show (rg.NumRelayer - wrapInt ((i : Int) + 1)).toNat = _
  rw [wrapInt_succ_of_lt rg h i hi]
  omega

theorem RelayerGraph.Edges_length (rg : RelayerGraph) (h : rg.InRange) :
    2 * rg.Edges.length = 2 * (rg.NumSender.toNat * rg.NumRelayer.toNat)
      + 2 * (rg.NumRelayer.toNat * rg.NumReceiver.toNat)
      + rg.NumRelayer.toNat * (rg.NumRelayer.toNat - 1) := by
  rw [RelayerGraph.Edges_eq]
  simp only [List.length_append, List.length_flatMap, Function.comp_def]
  have h1 : ((List.range rg.NumSender.toNat).map fun (i : Nat) =>
      (edgesSenderToRelayers ⟨(i : Int)⟩ rg.NumRelayer).length).sum
      = rg.NumSender.toNat * rg.NumRelayer.toNat := by
    simp [edgesSenderToRelayers_eq]
  have h2 : ((List.range rg.NumRelayer.toNat).map fun (i : Nat) =>
      (edgesRelayerToReceivers ⟨(i : Int)⟩ rg.NumReceiver).length).sum
      = rg.NumRelayer.toNat * rg.NumReceiver.toNat := by
    simp [edgesRelayerToReceivers_eq]
  have h3 : ((List.range rg.NumRelayer.toNat).map fun (i : Nat) =>
      (edgesRelayerToRelayers ⟨(i : Int)⟩ rg.NumRelayer).length)
      = (List.range rg.NumRelayer.toNat).map fun i => rg.NumRelayer.toNat - (i + 1) := by
    apply List.map_congr_left
    intro i hi
    exact edgesRelayerToRelayers_length rg h i (List.mem_range.1 hi)
  rw [h1, h2, h3, Nat.mul_add, Nat.mul_add, sum_range_countdown]
  exact (Nat.add_assoc _ _ _).symm


theorem RelayerGraph.Edges_nodup (rg : RelayerGraph) : rg.Edges.Nodup := by
  rw [RelayerGraph.Edges_eq]
  simp only [edgesSenderToRelayers_eq, edgesRelayerToReceivers_eq, edgesRelayerToRelayers_eq]
  refine List.nodup_append.2 ⟨?_, List.nodup_append.2 ⟨?_, ?_, ?_⟩, ?_⟩
  · refine List.nodup_flatMap.2 ⟨fun i _ => ?_, ?_⟩
    · refine (List.nodup_range _).map ?_
      intro a b hab
      simpa using hab
    · refine (List.nodup_range _).pairwise_of_forall_ne ?_
      intro a _ b _ hab
      simp only [Function.onFun, List.disjoint_left, List.mem_map, List.mem_range, not_exists,
        not_and]
      rintro e ⟨j, -, rfl⟩ j' - h
      simp only [Edge.sr.injEq, EdgeSR.mk.injEq, Sender.mk.injEq, Relayer.mk.injEq,
        Nat.cast_inj] at h
      exact hab h.1.symm
  · refine List.nodup_flatMap.2 ⟨fun i _ => ?_, ?_⟩
    · refine (List.nodup_range _).map ?_
      intro a b hab
      simpa using hab
    · refine (List.nodup_range _).pairwise_of_forall_ne ?_
      intro a _ b _ hab
      simp only [Function.onFun, List.disjoint_left, List.mem_map, List.mem_range, not_exists,
        not_and]
      rintro e ⟨j, -, rfl⟩ j' - h
      simp only [Edge.rt.injEq, EdgeRT.mk.injEq, Receiver.mk.injEq, Relayer.mk.injEq,
        Nat.cast_inj] at h
      exact hab h.1.symm
  · refine List.nodup_flatMap.2 ⟨fun i _ => ?_, ?_⟩
    · refine (List.nodup_range _).map ?_
      intro a b hab
      simpa using hab
    · refine (List.nodup_range _).pairwise_of_forall_ne ?_
      intro a _ b _ hab
      simp only [Function.onFun, List.disjoint_left, List.mem_map, List.mem_range, not_exists,
        not_and]
      rintro e ⟨j, -, rfl⟩ j' - h
      simp only [Edge.rr.injEq, EdgeRR.mk.injEq, Relayer.mk.injEq, Nat.cast_inj] at h
      exact hab h.1.symm
  · simp only [List.disjoint_left, List.mem_flatMap, List.mem_map, List.mem_range, not_exists,
      not_and]
    rintro e ⟨i, -, j, -, rfl⟩ i' - j' - h
    cases h
  · simp only [List.disjoint_left, List.mem_flatMap, List.mem_map, List.mem_range,
      List.mem_append, not_or, not_exists, not_and]
    rintro e ⟨i, -, j, -, rfl⟩
    exact ⟨fun i' _ j' _ h => (by cases h), fun i' _ j' _ h => (by cases h)⟩

/-- C11 (edge set of the reference topology). For every `RelayerGraph` with non-negative
`NumSender`, `NumRelayer`, `NumReceiver` (Go ints): `Edges()` has no duplicates; it contains
exactly the sender->relayer edges `(i, j)` with `i < NumSender`, `j < NumRelayer`, the
relayer->receiver edges `(i, j)` with `i < NumRelayer`, `j < NumReceiver` and the
relayer->relayer edges `(i, j)` with `i < j < NumRelayer` (all indices non-negative), in
particular no sender->receiver edge; and its length is
`NumSender*NumRelayer + NumRelayer*NumReceiver + NumRelayer*(NumRelayer-1)/2`. -/
theorem C11_edge_set (rg : RelayerGraph) (h : rg.InRange)
    (hS : 0 ≤ rg.NumSender) (hR : 0 ≤ rg.NumRelayer) (hT : 0 ≤ rg.NumReceiver) :
    rg.Edges.Nodup
    ∧ (∀ e : Edge, e ∈ rg.Edges ↔
        (∃ i j : Int, 0 ≤ i ∧ i < rg.NumSender ∧ 0 ≤ j ∧ j < rg.NumRelayer
          ∧ e = Edge.sr ⟨⟨i⟩, ⟨j⟩⟩)
        ∨ (∃ i j : Int, 0 ≤ i ∧ i < rg.NumRelayer ∧ 0 ≤ j ∧ j < rg.NumReceiver
          ∧ e = Edge.rt ⟨⟨i⟩, ⟨j⟩⟩)
        ∨ (∃ i j : Int, 0 ≤ i ∧ i < j ∧ j < rg.NumRelayer ∧ e = Edge.rr ⟨⟨i⟩, ⟨j⟩⟩))
    ∧ (∀ e : EdgeST, Edge.st e ∉ rg.Edges)
    ∧ (rg.Edges.length : Int)
        = rg.NumSender * rg.NumRelayer + rg.NumRelayer * rg.NumReceiver
          + rg.NumRelayer * (rg.NumRelayer - 1) / 2 := by
  refine ⟨RelayerGraph.Edges_nodup rg, ?_, ?_, ?_⟩
  · intro e
    rw [RelayerGraph.mem_Edges]
    constructor
    · rintro (⟨i, j, hi, hj, rfl⟩ | ⟨i, j, hi, hj, rfl⟩ | ⟨i, k, hi, hk, rfl⟩)
      · exact Or.inl ⟨i, j, by omega, by omega, by omega, by omega, rfl⟩
      · exact Or.inr (Or.inl ⟨i, j, by omega, by omega, by omega, by omega, rfl⟩)
      · rw [wrapInt_succ_of_lt rg h i hi] at hk ⊢
        exact Or.inr (Or.inr ⟨i, (i : Int) + 1 + k, by omega, by omega, by omega, rfl⟩)
    · rintro (⟨i, j, hi0, hi, hj0, hj, rfl⟩ | ⟨i, j, hi0, hi, hj0, hj, rfl⟩ |
        ⟨i, j, hi0, hij, hj, rfl⟩)
      · refine Or.inl ⟨i.toNat, j.toNat, by omega, by omega, ?_⟩
        rw [Int.toNat_of_nonneg hi0, Int.toNat_of_nonneg hj0]
      · refine Or.inr (Or.inl ⟨i.toNat, j.toNat, by omega, by omega, ?_⟩)
        rw [Int.toNat_of_nonneg hi0, Int.toNat_of_nonneg hj0]
      · have hiR : i.toNat < rg.NumRelayer.toNat := by omega
        refine Or.inr (Or.inr ⟨i.toNat, (j - i - 1).toNat, hiR, ?_, ?_⟩)
        · rw [wrapInt_succ_of_lt rg h _ hiR]
          omega
        · rw [wrapInt_succ_of_lt rg h _ hiR, Int.toNat_of_nonneg hi0]
          have : i + 1 + ((j - i - 1).toNat : Int) = j := by omega
          rw [this]
  · intro e he
    rw [RelayerGraph.mem_Edges] at he
    rcases he with ⟨i, j, -, -, h⟩ | ⟨i, j, -, -, h⟩ | ⟨i, j, -, -, h⟩ <;> cases h
  · have hlen := RelayerGraph.Edges_length rg h
    have hlen' : (2 : Int) * (rg.Edges.length : Int)
        = 2 * (rg.NumSender * rg.NumRelayer) + 2 * (rg.NumRelayer * rg.NumReceiver)
          + rg.NumRelayer * (rg.NumRelayer - 1) := by
      have := congrArg (fun n : Nat => (n : Int)) hlen
      simp only [Nat.cast_mul, Nat.cast_add, Nat.cast_ofNat] at this
      rw [this, Int.toNat_of_nonneg hS, Int.toNat_of_nonneg hR, Int.toNat_of_nonneg hT]
      congr 1
      rcases Int.eq_ofNat_of_zero_le hR with ⟨n, hn⟩
      rw [hn]
      cases n with
      | zero => simp
      | succ m => simp
    have hP : rg.NumRelayer * (rg.NumRelayer - 1)
        = 2 * ((rg.Edges.length : Int) - rg.NumSender * rg.NumRelayer
            - rg.NumRelayer * rg.NumReceiver) := by
      linarith
    rw [hP, Int.mul_ediv_cancel_left _ (by decide : (2 : Int) ≠ 0)]
    ring

theorem C11_edge_set_witness :
    (RelayerGraph.mk 2 3 2 (1 / 100)).Edges.Nodup
    ∧ ((RelayerGraph.mk 2 3 2 (1 / 100)).Edges.length : Int) = 2 * 3 + 3 * 2 + 3 * (3 - 1) / 2 :=
  ⟨(C11_edge_set (RelayerGraph.mk 2 3 2 (1 / 100)) (by decide) (by decide) (by decide)
      (by decide)).1,
   (C11_edge_set (RelayerGraph.mk 2 3 2 (1 / 100)) (by decide) (by decide) (by decide)
      (by decide)).2.2.2⟩

/-! ## The reference topology has no cycles -/

theorem RelayerGraph.rank_lt (rg : RelayerGraph) (h : rg.InRange) (e : Edge)
    (he : e ∈ rg.Edges) : rg.rank e.From < rg.rank e.To := by
  rw [RelayerGraph.mem_Edges] at he
  rcases he with ⟨i, j, hi, hj, rfl⟩ | ⟨i, j, hi, hj, rfl⟩ | ⟨i, k, hi, hk, rfl⟩
  · simp only [Edge.From, Edge.To, RelayerGraph.rank]
    omega
  · simp only [Edge.From, Edge.To, RelayerGraph.rank]
    omega
  · rw [wrapInt_succ_of_lt rg h i hi] at hk ⊢
    simp only [Edge.From, Edge.To, RelayerGraph.rank]
    omega

theorem RelayerGraph.rank_path (rg : RelayerGraph) (h : rg.InRange) (p : List Edge)
    (hne : p ≠ []) (hmem : ∀ e ∈ p, e ∈ rg.Edges)
    (hchain : List.Chain' (fun a b : Edge => a.To = b.From) p) :
    rg.rank (p.head hne).From < rg.rank (p.getLast hne).To := by
  induction p with
  | nil => exact absurd rfl hne
  | cons e rest ih =>
    cases rest with
    | nil => exact RelayerGraph.rank_lt rg h e (hmem e (List.mem_cons_self _ _))
    | cons e' rest =>
      have h1 := RelayerGraph.rank_lt rg h e (hmem e (List.mem_cons_self _ _))
      have hc := List.chain'_cons.1 hchain
      have h2 := ih (List.cons_ne_nil _ _) (fun x hx => hmem x (List.mem_cons_of_mem _ hx)) hc.2
      simp only [List.head_cons] at h2 ⊢
      rw [List.getLast_cons (List.cons_ne_nil _ _)]
      rw [hc.1] at h1
      exact lt_trans h1 h2

/-- C12 (the reference topology has no routing cycles). For every `RelayerGraph` (whose
fields are Go ints), a non-empty directed path made of edges of `Edges()` (each edge ending
where the next one starts) never ends at the node it starts from. -/
theorem C12_no_cycles (rg : RelayerGraph) (h : rg.InRange) (p : List Edge) (hne : p ≠ [])
    (hmem : ∀ e ∈ p, e ∈ rg.Edges)
    (hchain : List.Chain' (fun a b : Edge => a.To = b.From) p) :
    (p.head hne).From ≠ (p.getLast hne).To := by
  intro heq
  have := RelayerGraph.rank_path rg h p hne hmem hchain
  rw [heq] at this
  exact lt_irrefl _ this

theorem C12_no_cycles_witness :
    Node.sender ⟨0⟩ ≠ Node.receiver ⟨0⟩ :=
  C12_no_cycles (RelayerGraph.mk 1 2 1 (1 / 100)) (by decide)
    [Edge.sr ⟨⟨0⟩, ⟨0⟩⟩, Edge.rr ⟨⟨0⟩, ⟨1⟩⟩, Edge.rt ⟨⟨1⟩, ⟨0⟩⟩] (by simp) (by decide)
    (by simp [Edge.To, Edge.From])

/-! ## Responsibility constraints -/

theorem ite_append_self {β : Type} (c : Prop) [Decidable c] (r x : List β) :
    (if c then r ++ x else r) = r ++ (if c then x else []) := by
  split <;> simp

theorem length_ite_singleton {β : Type} (c : Prop) [Decidable c] (x : β) :
    (if c then [x] else []).length = if decide c = true then 1 else 0 := by
  by_cases h : c <;> simp [h]

/-- C14 (responsibility constraints). For every graph and budgets `listen` and `tell`,
`ResponsibilityConstraints` emits, node by node in the order of `graph.Nodes()`: for a node
with at least one incoming edge one constraint (sum of the capacity variables of its
incoming edges, coefficient 1 each) `<= listen`, then for a node with at least one outgoing
edge one constraint (sum of the capacity variables of its outgoing edges) `<= tell`, and
nothing for a node without incoming (resp. outgoing) edges; so the output length is the
number of nodes with an incoming edge plus the number of nodes with an outgoing edge. -/
theorem C14_responsibility_constraints {N E : Type} [Named E] (Constant : String)
    (graph : Graph N E) (listen tell : ℚ) :
    ResponsibilityConstraints Constant graph listen tell
      = graph.Nodes.flatMap (fun n =>
          (if (graph.EdgesTo n).length ≠ 0 then
            [({ Left := (graph.EdgesTo n).map fun p => ⟨Named.Name p, 1⟩, Comp := .LE,
                Right := [⟨Constant, listen⟩] } : Constraint)]
           else [])
          ++ (if (graph.EdgesFrom n).length ≠ 0 then
            [({ Left := (graph.EdgesFrom n).map fun c => ⟨Named.Name c, 1⟩, Comp := .LE,
                Right := [⟨Constant, tell⟩] } : Constraint)]
           else []))
    ∧ (ResponsibilityConstraints Constant graph listen tell).length
      = graph.Nodes.countP (fun n => decide ((graph.EdgesTo n).length ≠ 0))
        + graph.Nodes.countP (fun n => decide ((graph.EdgesFrom n).length ≠ 0)) := by
  have hnf : ResponsibilityConstraints Constant graph listen tell
      = graph.Nodes.flatMap (fun n =>
          (if (graph.EdgesTo n).length ≠ 0 then
            [({ Left := (graph.EdgesTo n).map fun p => ⟨Named.Name p, 1⟩, Comp := .LE,
                Right := [⟨Constant, listen⟩] } : Constraint)]
           else [])
          ++ (if (graph.EdgesFrom n).length ≠ 0 then
            [({ Left := (graph.EdgesFrom n).map fun c => ⟨Named.Name c, 1⟩, Comp := .LE,
                Right := [⟨Constant, tell⟩] } : Constraint)]
           else [])) := by
    unfold ResponsibilityConstraints
    simp only [Id.run, Id.bind_eq, Id.pure_eq, bind, pure, forIn_yield_append, forIn_yield_left,
      forIn_yield_right, ite_yield, ite_self_append, ite_append_self, ite_append_append,
      List.append_assoc, List.nil_append, List.singleton_append]
    congr 1
    funext n
    split_ifs <;> simp
  refine ⟨hnf, ?_⟩
  rw [hnf]
  generalize graph.Nodes = nodes
  induction nodes with
  | nil => simp
  | cons n rest ih =>
    simp only [List.flatMap_cons, List.length_append, ih, List.countP_cons,
      length_ite_singleton]
    omega

/-! ## The objective -/

theorem Edge_Name_ne_flow_names {N : Type} [Named N] (e e' : Edge) (bi mi : Int) (r : N) :
    Named.Name e ≠ MessageFlowName bi mi e'
    ∧ Named.Name e ≠ MessageReceiverFlowName bi mi r e' := by
  constructor
  · exact Edge_Name_ne_MessageFlowName e e' bi mi
  · intro h
    have h := congrArg String.data h
    simp only [MessageReceiverFlowName_data, Named_Name_Edge_data, List.cons.injEq] at h
    exact absurd h.1 (by decide)

/-- C15 (objective). For every graph and every list of broadcasts, the objective returned by
`BasicLP` has sense `Minimize` and consists of exactly one term per edge of `graph.Edges()`,
in the same order, the term of edge `e` being `(e.Name(), graph.EdgeCost(e))`; every term is
therefore the capacity term of an edge, none is built from a message-flow or receiver-flow
name (for the built-in edge variants no objective variable even has the string of such a
name), and the objective does not depend on the broadcasts. -/
theorem C15_objective {N E : Type} [Named N] [Named E] (Constant : String)
    (broadcasts broadcasts' : List (Broadcast N)) (graph : Graph N E) :
    (BasicLP Constant broadcasts graph).Objective
      = { Terms := graph.Edges.map fun e => ⟨Named.Name e, graph.EdgeCost e⟩,
          Sense := .Minimize }
    ∧ (BasicLP Constant broadcasts graph).Objective.Terms.length = graph.Edges.length
    ∧ (∀ t ∈ (BasicLP Constant broadcasts graph).Objective.Terms,
        ∃ e ∈ graph.Edges, t = ⟨Named.Name e, graph.EdgeCost e⟩)
    ∧ (BasicLP Constant broadcasts graph).Objective
        = (BasicLP Constant broadcasts' graph).Objective
    ∧ (∀ (g : Graph N Edge), ∀ t ∈ (BasicLP Constant broadcasts g).Objective.Terms,
        ∀ (i j : Int) (r : N) (e' : Edge),
          t.Var ≠ MessageFlowName i j e' ∧ t.Var ≠ MessageReceiverFlowName i j r e') := by
  refine ⟨?_, ?_, ?_, ?_, ?_⟩
  · rw [BasicLP_Objective]; rfl
  · rw [BasicLP_Objective]; simp [makeObjective]
  · intro t ht
    rw [BasicLP_Objective] at ht
    simp only [makeObjective, List.mem_map] at ht
    obtain ⟨e, he, rfl⟩ := ht
    exact ⟨e, he, rfl⟩
  · rw [BasicLP_Objective, BasicLP_Objective]
  · intro g t ht i j r e'
    rw [BasicLP_Objective] at ht
    simp only [makeObjective, List.mem_map] at ht
    obtain ⟨e, -, rfl⟩ := ht
    exact Edge_Name_ne_flow_names e e' i j r

/-! ## Edge costs of the reference topology -/

/-- C16, counterexample. With epsilon = 1/100 the edge sender 0 -> relayer 1 costs 101/100,
not 1. -/
theorem C16_counterexample :
    (RelayerGraph.mk 2 2 2 (1 / 100)).EdgeCost (Edge.sr ⟨⟨0⟩, ⟨1⟩⟩) = 101 / 100
    ∧ (RelayerGraph.mk 2 2 2 (1 / 100)).EdgeCost (Edge.sr ⟨⟨0⟩, ⟨1⟩⟩) ≠ 1 := by
  constructor <;> norm_num [RelayerGraph.EdgeCost]

/-- C16, amended (cost of sender->relayer edges, costs read as exact rationals). For every
`RelayerGraph` with epsilon `eps`, every sender index `i` and relayer index `k`,
`EdgeCost(EdgeSR{From: i, To: k})` is `1 + k*eps`, where `k` is the index of the relayer the
edge ends at. -/
theorem C16_sender_relayer_cost (rg : RelayerGraph) (i k : Int) :
    rg.EdgeCost (Edge.sr ⟨⟨i⟩, ⟨k⟩⟩) = 1 + (k : ℚ) * rg.RelayerEpsilon := by
  simp only [RelayerGraph.EdgeCost]

/-- C17 (index-perturbed cost of the reference topology, costs read as exact rationals).
For every `RelayerGraph` with epsilon `eps`: an edge from a sender to relayer `k` costs
`1 + k*eps`; an edge from relayer `i` to relayer `k` costs `1 + i*eps + k*eps`; an edge from
relayer `k` to a receiver costs `1 + k*eps`; and the sender->receiver variant, which
`Edges()` never produces, has the cost 1. -/
theorem C17_index_perturbed_cost (rg : RelayerGraph) (i k j : Int) :
    rg.EdgeCost (Edge.sr ⟨⟨i⟩, ⟨k⟩⟩) = 1 + (k : ℚ) * rg.RelayerEpsilon
    ∧ rg.EdgeCost (Edge.rr ⟨⟨i⟩, ⟨k⟩⟩)
        = 1 + (i : ℚ) * rg.RelayerEpsilon + (k : ℚ) * rg.RelayerEpsilon
    ∧ rg.EdgeCost (Edge.rt ⟨⟨k⟩, ⟨j⟩⟩) = 1 + (k : ℚ) * rg.RelayerEpsilon
    ∧ rg.EdgeCost (Edge.st ⟨⟨i⟩, ⟨j⟩⟩) = 1
    ∧ Edge.st ⟨⟨i⟩, ⟨j⟩⟩ ∉ rg.Edges := by
  refine ⟨rfl, rfl, rfl, rfl, ?_⟩
  intro he
  rw [RelayerGraph.mem_Edges] at he
  rcases he with ⟨a, b, -, -, h⟩ | ⟨a, b, -, -, h⟩ | ⟨a, b, -, -, h⟩ <;> cases h

/-! ## Edge names -/

/-- C18, counterexample. The name of the edge sender 0 -> relayer 0 is "es0r0", which is
not "s0" followed by "r0". -/
theorem C18_counterexample :
    (Edge.sr ⟨⟨0⟩, ⟨0⟩⟩).Name = "es0r0"
    ∧ (Edge.sr ⟨⟨0⟩, ⟨0⟩⟩).Name
        ≠ (Edge.sr ⟨⟨0⟩, ⟨0⟩⟩).From.Name ++ (Edge.sr ⟨⟨0⟩, ⟨0⟩⟩).To.Name := by
  decide

/-- C18, amended (edge names). For every edge of the variants `EdgeSR`, `EdgeST`, `EdgeRT`,
`EdgeRR`, `Name()` is the letter "e" followed by `From.Name()` followed by `To.Name()`, and
that string is the name of the capacity variable of the edge. -/
theorem C18_edge_name (e : Edge) :
    e.Name = "e" ++ e.From.Name ++ e.To.Name
    ∧ Named.Name e = "e" ++ e.From.Name ++ e.To.Name := by
  cases e <;> exact ⟨rfl, rfl⟩

/-! ## Demand generation -/

theorem SenderReceiverIndivPairs_eq (nSender nReceiver : Int) :
    SenderReceiverIndivPairs nSender nReceiver
      = (List.range nSender.toNat).flatMap fun (i : Nat) =>
          (List.range nReceiver.toNat).map fun (j : Nat) =>
            [({ Sender := Node.sender ⟨(i : Int)⟩, Receivers := [Node.receiver ⟨(j : Int)⟩],
                Weight := 1 } : Message Node)] := by
  unfold SenderReceiverIndivPairs
  simp only [Id.run, Id.bind_eq, Id.pure_eq, bind, pure, forIn_yield_append, List.nil_append,
    List.map_eq_flatMap]

theorem length_flatMap_range_map {β : Type} (n m : Nat) (f : Nat → Nat → β) :
    ((List.range n).flatMap fun i => (List.range m).map (f i)).length = n * m := by
  induction n with
  | zero => simp
  | succ n ih =>
    rw [List.range_succ, List.flatMap_append, List.length_append, ih]
    simp [Nat.succ_mul]

theorem getElem?_flatMap_range_map {β : Type} (n m : Nat) (f : Nat → Nat → β) (i j : Nat)
    (hi : i < n) (hj : j < m) :
    ((List.range n).flatMap fun i => (List.range m).map (f i))[i * m + j]? = some (f i j) := by
  induction n with
  | zero => omega
  | succ n ih =>
    rw [List.range_succ, List.flatMap_append]
    by_cases h : i < n
    · have hlt : i * m + j < ((List.range n).flatMap fun i => (List.range m).map (f i)).length := by
        rw [length_flatMap_range_map]
        calc i * m + j < i * m + m := by omega
          _ = (i + 1) * m := by ring
          _ ≤ n * m := Nat.mul_le_mul_right m h
      rw [List.getElem?_append_left hlt]
      exact ih h
    · have hin : i = n := by omega
      subst hin
      have hle : ((List.range i).flatMap fun i => (List.range m).map (f i)).length ≤ i * m + j := by
        rw [length_flatMap_range_map]; omega
      rw [List.getElem?_append_right hle, length_flatMap_range_map]
      simp [hj]


/-- C19 (one single-message broadcast per sender-receiver pair). For all non-negative
`nSender` and `nReceiver`, `SenderReceiverIndivPairs` returns exactly `nSender*nReceiver`
broadcasts, every broadcast holds exactly one message, and for all `i < nSender` and
`j < nReceiver` the broadcast at index `i*nReceiver + j` is the single message with
`Sender = Sender(i)`, `Receivers = [Receiver(j)]` and `Weight = 1`; so every message has a
non-empty, duplicate-free receiver list and a positive weight. -/
theorem C19_sender_receiver_pairs (nSender nReceiver : Int)
    (hS : 0 ≤ nSender) (hR : 0 ≤ nReceiver) :
    ((SenderReceiverIndivPairs nSender nReceiver).length : Int) = nSender * nReceiver
    ∧ (∀ b ∈ SenderReceiverIndivPairs nSender nReceiver, b.length = 1)
    ∧ (∀ i j : Nat, (i : Int) < nSender → (j : Int) < nReceiver →
        (SenderReceiverIndivPairs nSender nReceiver)[i * nReceiver.toNat + j]?
          = some [{ Sender := Node.sender ⟨(i : Int)⟩, Receivers := [Node.receiver ⟨(j : Int)⟩],
                    Weight := 1 }])
    ∧ (∀ b ∈ SenderReceiverIndivPairs nSender nReceiver, ∀ m ∈ b,
        m.Receivers ≠ [] ∧ m.Receivers.Nodup ∧ 0 < m.Weight) := by
  rw [SenderReceiverIndivPairs_eq]
  refine ⟨?_, ?_, ?_, ?_⟩
  · rw [length_flatMap_range_map, Nat.cast_mul, Int.toNat_of_nonneg hS,
      Int.toNat_of_nonneg hR]
  · intro b hb
    simp only [List.mem_flatMap, List.mem_map, List.mem_range] at hb
    obtain ⟨i, -, j, -, rfl⟩ := hb
    rfl
  · intro i j hi hj
    exact getElem?_flatMap_range_map nSender.toNat nReceiver.toNat _ i j (by omega) (by omega)
  · intro b hb m hm
    simp only [List.mem_flatMap, List.mem_map, List.mem_range] at hb
    obtain ⟨i, -, j, -, rfl⟩ := hb
    simp only [List.mem_singleton] at hm
    subst hm
    refine ⟨by simp, by simp, by norm_num⟩

theorem C19_sender_receiver_pairs_witness :
    (SenderReceiverIndivPairs 2 3)[1 * (3 : Int).toNat + 2]?
      = some [{ Sender := Node.sender ⟨((1 : Nat) : Int)⟩,
                Receivers := [Node.receiver ⟨((2 : Nat) : Int)⟩], Weight := 1 }] :=
  (C19_sender_receiver_pairs 2 3 (by decide) (by decide)).2.2.1 1 2 (by decide) (by decide)

/-! ## Provisioned capacity covers the demand -/

/-- In a satisfying assignment a message flow is bounded by the capacity of its edge. -/
theorem flow_le_capacity {N E : Type} [Named N] [Named E] (C : String)
    (bs : List (Broadcast N)) (g : Graph N E) (a : String → ℚ)
    (hC : Spec.Reserved N E C) (hsat : LP.Satisfied C a (BasicLP C bs g))
    (i j : Nat) (b : Broadcast N) (m : Message N)
    (hi : bs[i]? = some b) (hj : b[j]? = some m) (e : E) (he : e ∈ g.Edges) :
    a (MessageFlowName i j e) ≤ a (Named.Name e) := by
  obtain ⟨hE, hM, -⟩ := hC
  have hjlt : j < b.length := by
    by_contra hge
    rw [List.getElem?_eq_none (not_lt.1 hge)] at hj
    cases hj
  -- the capacity constraint of edge `e` and broadcast `i`
  have hcap : Spec.capacityCon i b e ∈ (BasicLP C bs g).Constraints := by
    rw [mem_BasicLP_Constraints]
    refine Or.inr (Or.inr (Or.inr (Or.inr (Or.inr (Or.inl ?_)))))
    simp only [Spec.sharedCapacity, List.mem_flatMap, List.mem_map]
    exact ⟨e, he, (i, b), List.mk_mem_enum_iff_getElem?.2 hi, rfl⟩
  have h1 := hsat _ hcap
  simp only [Constraint.Holds, Spec.capacityCon, Spec.mfTerm,
    termsValue_single C a _ (hE e),
    termsValue_map C a (fun (k : Nat) => MessageFlowName i k e) _ (fun k => hM _ _ e)] at h1
  -- every message flow of the broadcast on `e` is non-negative
  have hnn : ∀ x ∈ (List.range b.length).map fun (k : Nat) => a (MessageFlowName i k e),
      0 ≤ x := by
    intro x hx
    simp only [List.mem_map, List.mem_range] at hx
    obtain ⟨k, hk, rfl⟩ := hx
    have hmem := nonNegativity_mem_of_IsModelVar C bs g (MessageFlowName i k e)
      (Or.inr (Or.inl ⟨i, k, b[k], (Spec.mem_messages _ _ _ _).2
        ⟨b, hi, List.getElem?_eq_getElem hk⟩, e, he, rfl⟩))
    exact (Holds_nonNegativity C a _ (hM _ _ e)).1 (hsat _ hmem)
  have h2 := List.single_le_sum hnn (a (MessageFlowName i j e))
    (List.mem_map.2 ⟨j, List.mem_range.2 hjlt, rfl⟩)
  exact le_trans h2 h1

/-- C20 (provisioned capacity covers the demand at both endpoints). With the marker
`Constant` not a variable name: for every graph, every list of broadcasts and every
assignment of rational values that satisfies all constraints returned by `BasicLP`, for
every message of weight `w` and every receiver `r` listed in it, provided `EdgesTo(r)` and
`EdgesFrom(sender)` only return edges of `Edges()`, the capacity variables of the edges
entering `r` sum to at least `w`, and the capacity variables of the edges leaving the
message's sender sum to at least `w`. -/
theorem C20_capacity_covers_demand {N E : Type} [Named N] [Named E] (Constant : String)
    (broadcasts : List (Broadcast N)) (graph : Graph N E) (a : String → ℚ) (i j : Nat)
    (bcast : Broadcast N) (mess : Message N) (r : N)
    (hC : Spec.Reserved N E Constant)
    (hFrom : ∀ e ∈ graph.EdgesFrom mess.Sender, e ∈ graph.Edges)
    (hTo : ∀ e ∈ graph.EdgesTo r, e ∈ graph.Edges)
    (hsat : LP.Satisfied Constant a (BasicLP Constant broadcasts graph))
    (hi : broadcasts[i]? = some bcast) (hj : bcast[j]? = some mess) (hr : r ∈ mess.Receivers) :
    mess.Weight ≤ ((graph.EdgesTo r).map fun e => a (Named.Name e)).sum
    ∧ mess.Weight ≤ ((graph.EdgesFrom mess.Sender).map fun e => a (Named.Name e)).sum := by
  have hp : (i, j, mess, r) ∈ Spec.pairs broadcasts :=
    (Spec.mem_pairs _ _ _ _ _).2 ⟨⟨bcast, hi, hj⟩, hr⟩
  have hcap := flow_le_capacity Constant broadcasts graph a hC hsat i j bcast mess hi hj
  obtain ⟨-, hM, hR⟩ := hC
  constructor
  · -- demand satisfaction at the receiver
    have hmem : Spec.demandCon Constant graph i j mess r
        ∈ (BasicLP Constant broadcasts graph).Constraints := by
      rw [mem_BasicLP_Constraints]
      exact Or.inr (Or.inr (Or.inl (List.mem_map.2 ⟨(i, j, mess, r), hp, rfl⟩)))
    have h := hsat _ hmem
    simp only [Constraint.Holds, Spec.demandCon, Spec.mfTerm, termsValue_const,
      termsValue_map Constant a _ _ (fun e => hM _ _ e)] at h
    rw [← h]
    exact List.sum_le_sum fun e he => hcap e (hTo e he)
  · -- the receiver's flow leaving the sender
    have hmem : Spec.sourceEqCon Constant graph i j mess r
        ∈ (BasicLP Constant broadcasts graph).Constraints := by
      rw [mem_BasicLP_Constraints]
      exact Or.inr (Or.inr (Or.inr (Or.inr (Or.inr (Or.inr (Or.inr (Or.inl
        (List.mem_map.2 ⟨(i, j, mess, r), hp, rfl⟩))))))))
    have h := hsat _ hmem
    simp only [Constraint.Holds, Spec.sourceEqCon, Spec.rfTerm, termsValue_const,
      termsValue_map Constant a _ _ (fun e => hR _ _ _ e)] at h
    rw [← h]
    refine List.sum_le_sum fun e he => ?_
    have he' := hFrom e he
    have hb : Spec.boundCon i j r e ∈ (BasicLP Constant broadcasts graph).Constraints := by
      rw [mem_BasicLP_Constraints]
      refine Or.inr (Or.inr (Or.inr (Or.inr (Or.inr (Or.inr (Or.inl ?_))))))
      simp only [Spec.receiverBounds, List.mem_flatMap]
      exact ⟨(i, j, mess), (Spec.mem_messages _ _ _ _).2 ⟨bcast, hi, hj⟩, e, he', r, hr,
        List.mem_cons_self _ _⟩
    have h3 := hsat _ hb
    simp only [Constraint.Holds, Spec.boundCon, Spec.mfTerm, Spec.rfTerm,
      termsValue_single Constant a _ (hM _ _ e),
      termsValue_single Constant a _ (hR _ _ r e)] at h3
    exact le_trans h3 (hcap e he')

set_option maxRecDepth 100000 in
theorem C20_capacity_covers_demand_witness :
    scenarioMessage.Weight
        ≤ ((scenarioGraph.toGraph.EdgesTo (Node.receiver ⟨1⟩)).map
            fun e => scenarioFlow (Named.Name e)).sum
    ∧ scenarioMessage.Weight
        ≤ ((scenarioGraph.toGraph.EdgesFrom scenarioMessage.Sender).map
            fun e => scenarioFlow (Named.Name e)).sum :=
  C20_capacity_covers_demand sampleConstant scenarioBroadcasts scenarioGraph.toGraph
    scenarioFlow 0 0 [scenarioMessage] scenarioMessage (Node.receiver ⟨1⟩)
    Reserved_sampleConstant (by decide) (by decide)
    (satisfied_of_feasible sampleConstant scenarioFlow scenarioBroadcasts
      scenarioGraph.toGraph Reserved_sampleConstant scenarioFlow_feasible)
    rfl rfl (by decide)

/-! ## Malformed demand -/

set_option maxRecDepth 100000 in
/-- C13, counterexample. On the scenario graph, a broadcast list holding a message with an
empty receiver list, with weight -1, or with receiver 0 listed twice makes `BasicLP` return
16, 28 and 40 constraints respectively: the list of constraints is not empty. -/
theorem C13_counterexample :
    ((BasicLP sampleConstant [[emptyReceiversMessage]] scenarioGraph.toGraph).Constraints.length
        = 16
      ∧ (BasicLP sampleConstant [[emptyReceiversMessage]] scenarioGraph.toGraph).Constraints ≠ [])
    ∧ ((BasicLP sampleConstant [[nonPositiveWeightMessage]]
          scenarioGraph.toGraph).Constraints.length = 28
      ∧ (BasicLP sampleConstant [[nonPositiveWeightMessage]]
          scenarioGraph.toGraph).Constraints ≠ [])
    ∧ ((BasicLP sampleConstant [[duplicateReceiverMessage]]
          scenarioGraph.toGraph).Constraints.length = 40
      ∧ (BasicLP sampleConstant [[duplicateReceiverMessage]]
          scenarioGraph.toGraph).Constraints ≠ []) := by
  decide

/-- C13, amended (malformed demand is not rejected). For every graph, every broadcast list
and every message `(i, j)` of it, whatever its receiver list and weight (also an empty
receiver list, a non-positive weight or a duplicated receiver), the constraints returned by
`BasicLP` contain the capacity non-negativity constraint of every edge, the non-negativity
constraint of the message's flow on every edge, and, for every receiver listed in the
message, the demand equality whose right side is the message weight copied as it is. -/
theorem C13_malformed_demand_accepted {N E : Type} [Named N] [Named E] (Constant : String)
    (broadcasts : List (Broadcast N)) (graph : Graph N E) (i j : Nat)
    (bcast : Broadcast N) (mess : Message N)
    (hi : broadcasts[i]? = some bcast) (hj : bcast[j]? = some mess) :
    (∀ e ∈ graph.Edges, nonNegativity Constant (Named.Name e)
        ∈ (BasicLP Constant broadcasts graph).Constraints)
    ∧ (∀ e ∈ graph.Edges, nonNegativity Constant (MessageFlowName i j e)
        ∈ (BasicLP Constant broadcasts graph).Constraints)
    ∧ (∀ r ∈ mess.Receivers,
        ({ Left := (graph.EdgesTo r).map fun e => ⟨MessageFlowName i j e, 1⟩,
           Comp := .EQ, Right := [⟨Constant, mess.Weight⟩] } : Constraint)
          ∈ (BasicLP Constant broadcasts graph).Constraints) := by
  have hm : (i, j, mess) ∈ Spec.messages broadcasts :=
    (Spec.mem_messages _ _ _ _).2 ⟨bcast, hi, hj⟩
  refine ⟨fun e he => ?_, fun e he => ?_, fun r hr => ?_⟩
  · exact nonNegativity_mem_of_IsModelVar Constant broadcasts graph _ (Or.inl ⟨e, he, rfl⟩)
  · exact nonNegativity_mem_of_IsModelVar Constant broadcasts graph _
      (Or.inr (Or.inl ⟨i, j, mess, hm, e, he, rfl⟩))
  · rw [mem_BasicLP_Constraints]
    refine Or.inr (Or.inr (Or.inl ?_))
    exact List.mem_map.2 ⟨(i, j, mess, r), (Spec.mem_pairs _ _ _ _ _).2 ⟨⟨bcast, hi, hj⟩, hr⟩, rfl⟩

set_option maxRecDepth 100000 in
theorem C13_malformed_demand_accepted_witness :
    [[nonPositiveWeightMessage]][0]? = some [nonPositiveWeightMessage]
    ∧ [nonPositiveWeightMessage][0]? = some nonPositiveWeightMessage
    ∧ nonPositiveWeightMessage.Weight = -1
    ∧ ({ Left := [⟨"b0m0er0t0", 1⟩], Comp := .EQ, Right := [⟨sampleConstant, -1⟩] } : Constraint)
      ∈ (BasicLP sampleConstant [[nonPositiveWeightMessage]] scenarioGraph.toGraph).Constraints :=
  ⟨rfl, rfl, rfl, (C13_malformed_demand_accepted sampleConstant [[nonPositiveWeightMessage]]
    scenarioGraph.toGraph 0 0 [nonPositiveWeightMessage] nonPositiveWeightMessage rfl rfl).2.2
    (.receiver ⟨0⟩) (by decide)⟩

/-! ## Shared capacity over the whole constraint list -/

theorem Spec.HasBroadcastIndex_unique {i i' : Nat} {s : String}
    (h : Spec.HasBroadcastIndex i s) (h' : Spec.HasBroadcastIndex i' s) : i = i' := by
  obtain ⟨r, hr⟩ := h
  obtain ⟨r', hr'⟩ := h'
  rw [hr, List.cons.injEq] at hr'
  obtain ⟨h1, -, -⟩ := digits_sep_inj _ _ _ _ _ _ (Itoa_isDigit _ (Int.natCast_nonneg i))
    (Itoa_isDigit _ (Int.natCast_nonneg i')) (by decide) (by decide) hr'.2
  have := Itoa_injective (Int.natCast_nonneg i) (Int.natCast_nonneg i') h1
  exact_mod_cast this

theorem MessageFlowName_HasBroadcastIndex {E : Type} [Named E] (i j : Nat) (e : E) :
    Spec.HasBroadcastIndex i (MessageFlowName i j e) :=
  ⟨_, MessageFlowName_data i j e⟩

theorem MessageReceiverFlowName_HasBroadcastIndex {N E : Type} [Named N] [Named E]
    (i j : Nat) (r : N) (e : E) :
    Spec.HasBroadcastIndex i (MessageReceiverFlowName i j r e) :=
  ⟨_, MessageReceiverFlowName_data i j r e⟩

/-- Every constraint of the conservation family is a zero constraint or an attenuation
constraint. -/
theorem Spec.mem_conservation_shape {N E : Type} [Named N] [Named E] (C : String)
    (bs : List (Broadcast N)) (g : Graph N E) (c : Constraint)
    (hc : c ∈ Spec.conservation C bs g) :
    ∃ (i j : Nat) (e : E), c = Spec.zeroCon C i j e ∨ ∃ n : N, c = Spec.attenuationCon g n i j e := by
  simp only [Spec.conservation, List.mem_flatMap] at hc
  obtain ⟨n, -, hc⟩ := hc
  unfold Spec.nodeConservation at hc
  split_ifs at hc
  · cases hc
  · simp only [List.mem_flatMap] at hc
    obtain ⟨p, -, hc⟩ := hc
    split_ifs at hc
    · cases hc
    · obtain ⟨e, -, rfl⟩ := List.mem_map.1 hc
      exact ⟨p.1, p.2.1, e, Or.inl rfl⟩
  · simp only [List.mem_flatMap] at hc
    obtain ⟨p, -, hc⟩ := hc
    obtain ⟨e, -, rfl⟩ := List.mem_map.1 hc
    exact ⟨p.1, p.2.1, e, Or.inr ⟨n, rfl⟩⟩

/-- The left side of every constraint `BasicLP` returns is a single term or a list of
flow names that all carry one broadcast index. -/
theorem BasicLP_Left_one_broadcast {N E : Type} [Named N] [Named E] (C : String)
    (bs : List (Broadcast N)) (g : Graph N E) (c : Constraint)
    (hc : c ∈ (BasicLP C bs g).Constraints) :
    (∃ t, c.Left = [t]) ∨ ∃ i : Nat, ∀ t ∈ c.Left, Spec.HasBroadcastIndex i t.Var := by
  rw [mem_BasicLP_Constraints] at hc
  rcases hc with hc | hc | hc | hc | hc | hc | hc | hc | hc | hc
  · simp only [Spec.capacityNonNeg, List.mem_map] at hc
    obtain ⟨e, -, rfl⟩ := hc
    exact Or.inl ⟨_, rfl⟩
  · simp only [Spec.flowNonNeg, List.mem_flatMap, List.mem_map] at hc
    obtain ⟨p, -, e, -, rfl⟩ := hc
    exact Or.inl ⟨_, rfl⟩
  · simp only [Spec.demandSatisfaction, List.mem_map] at hc
    obtain ⟨p, -, rfl⟩ := hc
    refine Or.inr ⟨p.1, fun t ht => ?_⟩
    simp only [Spec.demandCon, List.mem_map] at ht
    obtain ⟨e, -, rfl⟩ := ht
    exact MessageFlowName_HasBroadcastIndex _ _ _
  · simp only [Spec.sourceCap, List.mem_flatMap, List.mem_map] at hc
    obtain ⟨p, -, e, -, rfl⟩ := hc
    exact Or.inl ⟨_, rfl⟩
  · obtain ⟨i, j, e, rfl | ⟨n, rfl⟩⟩ := Spec.mem_conservation_shape C bs g c hc
    · exact Or.inl ⟨_, rfl⟩
    · exact Or.inl ⟨_, rfl⟩
  · simp only [Spec.sharedCapacity, List.mem_flatMap, List.mem_map] at hc
    obtain ⟨e, -, ib, -, rfl⟩ := hc
    refine Or.inr ⟨ib.1, fun t ht => ?_⟩
    simp only [Spec.capacityCon, List.mem_map] at ht
    obtain ⟨j, -, rfl⟩ := ht
    exact MessageFlowName_HasBroadcastIndex _ _ _
  · simp only [Spec.receiverBounds, List.mem_flatMap, List.mem_cons, List.mem_singleton,
      List.not_mem_nil, or_false] at hc
    obtain ⟨p, -, e, -, r, -, rfl | rfl⟩ := hc
    · exact Or.inl ⟨_, rfl⟩
    · exact Or.inl ⟨_, rfl⟩
  · simp only [Spec.receiverSource, List.mem_map] at hc
    obtain ⟨p, -, rfl⟩ := hc
    refine Or.inr ⟨p.1, fun t ht => ?_⟩
    simp only [Spec.sourceEqCon, List.mem_map] at ht
    obtain ⟨e, -, rfl⟩ := ht
    exact MessageReceiverFlowName_HasBroadcastIndex _ _ _ _
  · simp only [Spec.receiverSink, List.mem_map] at hc
    obtain ⟨p, -, rfl⟩ := hc
    refine Or.inr ⟨p.1, fun t ht => ?_⟩
    simp only [Spec.sinkEqCon, List.mem_map] at ht
    obtain ⟨e, -, rfl⟩ := ht
    exact MessageReceiverFlowName_HasBroadcastIndex _ _ _ _
  · simp only [Spec.receiverConservation, List.mem_flatMap] at hc
    obtain ⟨p, -, n, -, hc⟩ := hc
    split_ifs at hc
    · cases hc
    · rw [List.mem_singleton] at hc
      subst hc
      refine Or.inr ⟨p.1, fun t ht => ?_⟩
      simp only [Spec.continuityCon, List.mem_map] at ht
      obtain ⟨e, -, rfl⟩ := ht
      exact MessageReceiverFlowName_HasBroadcastIndex _ _ _ _

/-- Outside the capacity family no constraint has the shape of a capacity constraint of
`s`, when `s` is neither the marker nor a message-flow name. -/
theorem BasicLP_filter_isCapacityOf {N E : Type} [Named N] [Named E] (C : String)
    (bs : List (Broadcast N)) (g : Graph N E) (s : String) (hC : s ≠ C)
    (hMF : ∀ (i j : Nat) (e : E), s ≠ MessageFlowName i j e) :
    (BasicLP C bs g).Constraints.filter (Spec.isCapacityOf s)
      = (Spec.sharedCapacity bs g).filter (Spec.isCapacityOf s) := by
  have h1 : (Spec.capacityNonNeg C g).filter (Spec.isCapacityOf s) = [] := by
    refine List.filter_eq_nil_iff.2 fun c hc => ?_
    simp only [Spec.capacityNonNeg, List.mem_map] at hc
    obtain ⟨e, -, rfl⟩ := hc
    simp [Spec.isCapacityOf, nonNegativity]
  have h2 : (Spec.flowNonNeg C bs g).filter (Spec.isCapacityOf s) = [] := by
    refine List.filter_eq_nil_iff.2 fun c hc => ?_
    simp only [Spec.flowNonNeg, List.mem_flatMap, List.mem_map] at hc
    obtain ⟨p, -, e, -, rfl⟩ := hc
    simp [Spec.isCapacityOf, nonNegativity]
  have h3 : (Spec.demandSatisfaction C bs g).filter (Spec.isCapacityOf s) = [] := by
    refine List.filter_eq_nil_iff.2 fun c hc => ?_
    simp only [Spec.demandSatisfaction, List.mem_map] at hc
    obtain ⟨p, -, rfl⟩ := hc
    simp [Spec.isCapacityOf, Spec.demandCon]
  have h4 : (Spec.sourceCap C bs g).filter (Spec.isCapacityOf s) = [] := by
    refine List.filter_eq_nil_iff.2 fun c hc => ?_
    simp only [Spec.sourceCap, List.mem_flatMap, List.mem_map] at hc
    obtain ⟨p, -, e, -, rfl⟩ := hc
    simp only [Spec.isCapacityOf, decide_eq_true_eq, true_and, List.cons.injEq, Term.mk.injEq,
      and_true]
    exact fun h => hC h.1.symm
  have h5 : (Spec.conservation C bs g).filter (Spec.isCapacityOf s) = [] := by
    refine List.filter_eq_nil_iff.2 fun c hc => ?_
    obtain ⟨i, j, e, rfl | ⟨n, rfl⟩⟩ := Spec.mem_conservation_shape C bs g c hc
    · simp [Spec.isCapacityOf, Spec.zeroCon]
    · simp only [Spec.isCapacityOf, Spec.attenuationCon, decide_eq_true_eq, true_and]
      intro h
      cases hp : g.EdgesTo n with
      | nil => rw [hp] at h; cases h
      | cons p ps =>
        rw [hp, List.map_cons, List.cons.injEq] at h
        have := congrArg Term.Var h.1
        exact hMF i j p this.symm
  have h7 : (Spec.receiverBounds C bs g).filter (Spec.isCapacityOf s) = [] := by
    refine List.filter_eq_nil_iff.2 fun c hc => ?_
    simp only [Spec.receiverBounds, List.mem_flatMap, List.mem_cons, List.mem_singleton,
      List.not_mem_nil, or_false] at hc
    obtain ⟨p, -, e, -, r, -, rfl | rfl⟩ := hc
    · simp only [Spec.isCapacityOf, Spec.boundCon, decide_eq_true_eq, true_and,
        List.cons.injEq, and_true]
      intro h
      have := congrArg Term.Var h
      exact hMF p.1 p.2.1 e this.symm
    · simp [Spec.isCapacityOf, nonNegativity]
  have h8 : (Spec.receiverSource C bs g).filter (Spec.isCapacityOf s) = [] := by
    refine List.filter_eq_nil_iff.2 fun c hc => ?_
    simp only [Spec.receiverSource, List.mem_map] at hc
    obtain ⟨p, -, rfl⟩ := hc
    simp [Spec.isCapacityOf, Spec.sourceEqCon]
  have h9 : (Spec.receiverSink C bs g).filter (Spec.isCapacityOf s) = [] := by
    refine List.filter_eq_nil_iff.2 fun c hc => ?_
    simp only [Spec.receiverSink, List.mem_map] at hc
    obtain ⟨p, -, rfl⟩ := hc
    simp [Spec.isCapacityOf, Spec.sinkEqCon]
  have h10 : (Spec.receiverConservation bs g).filter (Spec.isCapacityOf s) = [] := by
    refine List.filter_eq_nil_iff.2 fun c hc => ?_
    simp only [Spec.receiverConservation, List.mem_flatMap] at hc
    obtain ⟨p, -, n, -, hc⟩ := hc
    split_ifs at hc
    · cases hc
    · rw [List.mem_singleton] at hc
      subst hc
      simp [Spec.isCapacityOf, Spec.continuityCon]
  rw [BasicLP_Constraints]
  simp only [List.filter_append, h1, h2, h3, h4, h5, h7, h8, h9, h10, List.nil_append,
    List.append_nil]

/-- In a duplicate-free edge list whose names are distinct from the name of `e`, the
capacity constraints of `e` are the ones of the capacity family with its shape. -/
theorem sharedCapacity_filter_isCapacityOf {N E : Type} [Named E]
    (bs : List (Broadcast N)) (e : E) (l : List E) (hnd : l.Nodup) (he : e ∈ l)
    (hinj : ∀ e' ∈ l, Named.Name e' = Named.Name e → e' = e) :
    (l.flatMap fun e' => bs.enum.map fun ib =>
        (Spec.capacityCon ib.1 ib.2 e' : Constraint)).filter (Spec.isCapacityOf (Named.Name e))
      = bs.enum.map fun ib => Spec.capacityCon ib.1 ib.2 e := by
  have hyes : ∀ e' : E, Named.Name e' = Named.Name e →
      (bs.enum.map fun ib => (Spec.capacityCon ib.1 ib.2 e' : Constraint)).filter
        (Spec.isCapacityOf (Named.Name e))
        = bs.enum.map fun ib => Spec.capacityCon ib.1 ib.2 e' := by
    intro e' h
    refine List.filter_eq_self.2 fun c hc => ?_
    obtain ⟨ib, -, rfl⟩ := List.mem_map.1 hc
    simp [Spec.isCapacityOf, Spec.capacityCon, h]
  have hno : ∀ e' : E, Named.Name e' ≠ Named.Name e →
      (bs.enum.map fun ib => (Spec.capacityCon ib.1 ib.2 e' : Constraint)).filter
        (Spec.isCapacityOf (Named.Name e)) = [] := by
    intro e' h
    refine List.filter_eq_nil_iff.2 fun c hc => ?_
    obtain ⟨ib, -, rfl⟩ := List.mem_map.1 hc
    simp [Spec.isCapacityOf, Spec.capacityCon, h]
  have hnone : ∀ l' : List E, (∀ e' ∈ l', Named.Name e' ≠ Named.Name e) →
      (l'.flatMap fun e' => bs.enum.map fun ib =>
        (Spec.capacityCon ib.1 ib.2 e' : Constraint)).filter
          (Spec.isCapacityOf (Named.Name e)) = [] := by
    intro l' hl'
    induction l' with
    | nil => rfl
    | cons a l' ih =>
      rw [List.flatMap_cons, List.filter_append, hno a (hl' a (List.mem_cons_self _ _)),
        ih fun e' he' => hl' e' (List.mem_cons_of_mem _ he'), List.append_nil]
  induction l with
  | nil => cases he
  | cons a l ih =>
    rw [List.nodup_cons] at hnd
    rw [List.flatMap_cons, List.filter_append]
    by_cases hae : a = e
    · subst hae
      rw [hyes a rfl, hnone l, List.append_nil]
      intro e' he' h
      have := hinj e' (List.mem_cons_of_mem _ he') h
      exact hnd.1 (this ▸ he')
    · have hmem : e ∈ l := by
        rcases List.mem_cons.1 he with h | h
        · exact absurd h.symm hae
        · exact h
      rw [hno a fun h => hae (hinj a (List.mem_cons_self _ _) h), List.nil_append]
      exact ih hnd.2 hmem fun e' he' => hinj e' (List.mem_cons_of_mem _ he')

/-- C2 (shared capacity is per broadcast). For every edge `e` of `graph.Edges()` and every
broadcast index `i`, the constraints returned by `BasicLP` contain the constraint whose left
side is the coefficient-1 terms `MessageFlowName(i, j, e)` for the messages `j` of broadcast
`i`, with comparator `<=` and right side the single term `(e.Name(), 1)`. The capacity loop
emits a contiguous block of the returned list that holds exactly one such constraint per edge
and broadcast index, `len(edges) * len(broadcasts)` of them, and nothing else. In the whole
returned list no constraint has on its left side message-flow names of two different
broadcasts. And when the edge list has no duplicates, no other edge has the name of `e`, and
that name is neither the marker `Constant` nor a message-flow name, the constraints of the
whole returned list with comparator `<=` and right side `(e.Name(), 1)` are exactly the
capacity constraints of `e`, one per broadcast, in the order of the broadcasts. -/
theorem C2_shared_capacity_per_broadcast {N E : Type} [Named N] [Named E] (Constant : String)
    (broadcasts : List (Broadcast N)) (graph : Graph N E) :
    (∃ pre post, (BasicLP Constant broadcasts graph).Constraints
        = pre ++ Spec.sharedCapacity broadcasts graph ++ post)
    ∧ (Spec.sharedCapacity broadcasts graph).length = graph.Edges.length * broadcasts.length
    ∧ (∀ e ∈ graph.Edges, ∀ (i : Nat) (bcast : Broadcast N), broadcasts[i]? = some bcast →
        ({ Left := (List.range bcast.length).map fun (j : Nat) => ⟨MessageFlowName i j e, 1⟩,
           Comp := .LE, Right := [⟨Named.Name e, 1⟩] } : Constraint)
          ∈ Spec.sharedCapacity broadcasts graph)
    ∧ (∀ c ∈ Spec.sharedCapacity broadcasts graph,
        ∃ e ∈ graph.Edges, ∃ (i : Nat) (bcast : Broadcast N), broadcasts[i]? = some bcast ∧
          c = { Left := (List.range bcast.length).map fun (j : Nat) => ⟨MessageFlowName i j e, 1⟩,
                Comp := .LE, Right := [⟨Named.Name e, 1⟩] })
    ∧ (∀ e ∈ graph.Edges, ∀ (i : Nat) (bcast : Broadcast N), broadcasts[i]? = some bcast →
        ({ Left := (List.range bcast.length).map fun (j : Nat) => ⟨MessageFlowName i j e, 1⟩,
           Comp := .LE, Right := [⟨Named.Name e, 1⟩] } : Constraint)
          ∈ (BasicLP Constant broadcasts graph).Constraints)
    ∧ (∀ c ∈ (BasicLP Constant broadcasts graph).Constraints, ∀ t ∈ c.Left, ∀ t' ∈ c.Left,
        ∀ (i j i' j' : Nat) (e e' : E),
          t.Var = MessageFlowName i j e → t'.Var = MessageFlowName i' j' e' → i = i')
    ∧ (∀ e ∈ graph.Edges, graph.Edges.Nodup →
        (∀ e' ∈ graph.Edges, Named.Name e' = Named.Name e → e' = e) →
        Named.Name e ≠ Constant →
        (∀ (i j : Nat) (e' : E), Named.Name e ≠ MessageFlowName i j e') →
        (BasicLP Constant broadcasts graph).Constraints.filter
            (fun c => decide (c.Comp = Comparison.LE ∧ c.Right = [⟨Named.Name e, 1⟩]))
          = broadcasts.enum.map fun ib =>
              { Left := (List.range ib.2.length).map fun (j : Nat) =>
                  ⟨MessageFlowName ib.1 j e, 1⟩,
                Comp := .LE, Right := [⟨Named.Name e, 1⟩] }) := by
  have hmem : ∀ e ∈ graph.Edges, ∀ (i : Nat) (bcast : Broadcast N),
      broadcasts[i]? = some bcast →
      Spec.capacityCon i bcast e ∈ Spec.sharedCapacity broadcasts graph := by
    intro e he i bcast hi
    simp only [Spec.sharedCapacity, List.mem_flatMap, List.mem_map]
    exact ⟨e, he, (i, bcast), List.mk_mem_enum_iff_getElem?.2 hi, rfl⟩
  refine ⟨BasicLP_block_sharedCapacity Constant broadcasts graph, ?_, hmem, ?_, ?_, ?_, ?_⟩
  · simp only [Spec.sharedCapacity, List.length_flatMap, List.length_map, List.enum_length,
      Function.comp_def, List.map_const', List.sum_replicate, smul_eq_mul]
  · intro c hc
    simp only [Spec.sharedCapacity, List.mem_flatMap, List.mem_map] at hc
    obtain ⟨e, he, ⟨i, bcast⟩, hib, rfl⟩ := hc
    exact ⟨e, he, i, bcast, List.mk_mem_enum_iff_getElem?.1 hib, rfl⟩
  · intro e he i bcast hi
    rw [mem_BasicLP_Constraints]
    exact Or.inr (Or.inr (Or.inr (Or.inr (Or.inr (Or.inl (hmem e he i bcast hi))))))
  · intro c hc t ht t' ht' i j i' j' e e' h h'
    have hi := MessageFlowName_HasBroadcastIndex i j e
    have hi' := MessageFlowName_HasBroadcastIndex i' j' e'
    rw [← h] at hi
    rw [← h'] at hi'
    rcases BasicLP_Left_one_broadcast Constant broadcasts graph c hc with ⟨t0, h0⟩ | ⟨k, hk⟩
    · rw [h0, List.mem_singleton] at ht ht'
      rw [ht] at hi
      rw [ht'] at hi'
      exact Spec.HasBroadcastIndex_unique hi hi'
    · exact (Spec.HasBroadcastIndex_unique hi (hk t ht)).trans
        (Spec.HasBroadcastIndex_unique hi' (hk t' ht')).symm
  · intro e he hnd hinj hC hMF
    exact (BasicLP_filter_isCapacityOf Constant broadcasts graph _ hC hMF).trans
      (sharedCapacity_filter_isCapacityOf broadcasts e graph.Edges hnd he hinj)

set_option maxRecDepth 100000 in
theorem C2_shared_capacity_per_broadcast_witness :
    (BasicLP sampleConstant scenarioBroadcasts scenarioGraph.toGraph).Constraints.filter
        (fun c => decide (c.Comp = Comparison.LE ∧ c.Right = [⟨"es1r0", 1⟩]))
      = [{ Left := [⟨"b0m0es1r0", 1⟩], Comp := .LE, Right := [⟨"es1r0", 1⟩] }] :=
  (C2_shared_capacity_per_broadcast sampleConstant scenarioBroadcasts
    scenarioGraph.toGraph).2.2.2.2.2.2 (Edge.sr ⟨⟨1⟩, ⟨0⟩⟩) (by decide)
    (RelayerGraph.Edges_nodup scenarioGraph) (by decide) (by decide)
    (fun i j e' => Edge_Name_ne_MessageFlowName _ e' i j)

end Nco
